import Mathlib

/-!
# Verification of the job-scrapper page-traversal core

This file gives a shallow embedding, in Lean 4, of the URL-normalisation,
text-processing and page-traversal logic of the job-scrapper repository
(`source/service/agent_service.py`, `source/utils/text_processor.py`,
`source/utils/ats_detector.py`), together with theorems settling the
specification claims about that logic.

Strings are modelled as `List Char`, with `String` wrappers where the
scraper-level code manipulates whole URLs.  Python's `urllib.parse.urlsplit`
/ `urlparse` / `urlunparse` are embedded faithfully for bracket-free hosts
(the `ValueError` branches for unbalanced `[`/`]` in a netloc, which raise
instead of returning, are not modelled; no claim involves bracketed hosts).
`str.lower` is modelled on ASCII letters, as in `Char.toLower`.
-/

-- =========================================================================
-- Python string primitives
-- =========================================================================

/-- Python `str.lower()` (ASCII letters). -/
def lowerStr (s : List Char) : List Char := s.map Char.toLower

/-- Python `str.rstrip("/")`: drop every trailing `'/'`. -/
def rstripSlash (s : List Char) : List Char :=
  (s.reverse.dropWhile (fun c => c = '/')).reverse

/-- Python `str.lstrip(_WHATWG_C0_CONTROL_OR_SPACE)` as done by `urlsplit`:
drop leading C0 control characters and spaces. -/
def lstripC0 (s : List Char) : List Char :=
  s.dropWhile (fun c => c.toNat ≤ 0x20)

/-- `urlsplit` removes every `'\t'`, `'\r'`, `'\n'` anywhere in the URL
(`_UNSAFE_URL_BYTES_TO_REMOVE`); the three sequential `str.replace` calls
amount to one filter. -/
def removeUnsafe (s : List Char) : List Char :=
  s.filter (fun c => ¬(c = '\t' ∨ c = '\r' ∨ c = '\n'))

/-- Python `str.find(sub)` over lists: first index at which `needle` occurs
in `hay`, `none` when absent (Python returns `-1`).  An empty needle is
found at index 0, as in Python. -/
def findSub (needle : List Char) : List Char → Option Nat
  | [] => if needle.isPrefixOf ([] : List Char) then some 0 else none
  | c :: t =>
    if needle.isPrefixOf (c :: t) then some 0
    else (findSub needle t).map (· + 1)

/-- Python `str.replace("www.", "")`: remove every non-overlapping
occurrence of `www.`, scanning left to right. -/
def removeWWW : List Char → List Char
  | 'w' :: 'w' :: 'w' :: '.' :: rest => removeWWW rest
  | c :: rest => c :: removeWWW rest
  | [] => []

/-- Whether `www.` occurs anywhere in the string (used to phrase when
`removeWWW` is a fixpoint). -/
def hasWWW : List Char → Bool
  | 'w' :: 'w' :: 'w' :: '.' :: _ => true
  | _ :: rest => hasWWW rest
  | [] => false

-- =========================================================================
-- urllib.parse.urlsplit / urlparse / urlunparse (CPython 3.11 semantics)
-- =========================================================================

/-- Characters allowed after the first character of a URL scheme
(`scheme_chars` in `urllib.parse`). -/
def isSchemeRestChar (c : Char) : Bool :=
  c.isAlpha || c.isDigit || c = '+' || c = '-' || c = '.'

/-- The scheme-splitting step of `urlsplit`: if the first `':'` is at a
positive index, the first character is an ASCII letter and everything up to
the colon is a scheme character, split off the (lowercased) scheme. -/
def splitScheme (url : List Char) : List Char × List Char :=
  match url.findIdx? (fun c => c = ':') with
  | some i =>
    if 0 < i
        && (match url with | c :: _ => c.isAlpha | [] => false)
        && ((url.drop 1).take (i - 1)).all isSchemeRestChar
    then (lowerStr (url.take i), url.drop (i + 1))
    else ([], url)
  | none => ([], url)

/-- `_splitnetloc(url, 2)`: given a URL starting with `//`, the netloc is
everything from index 2 up to the first `'/'`, `'?'` or `'#'`. -/
def splitNetloc (url : List Char) : List Char × List Char :=
  let rest := url.drop 2
  let d := rest.findIdx (fun c => c = '/' || c = '?' || c = '#')
  (rest.take d, rest.drop d)

/-- Python `url.split(ch, 1)` when `ch` occurs, `(url, "")` otherwise. -/
def splitOnFirst (url : List Char) (ch : Char) : List Char × List Char :=
  match url.findIdx? (fun c => c = ch) with
  | some i => (url.take i, url.drop (i + 1))
  | none => (url, [])

structure SplitResult where
  scheme : List Char
  netloc : List Char
  path : List Char
  query : List Char
  fragment : List Char
deriving DecidableEq, Repr

/-- `urllib.parse.urlsplit` (fragment and query allowed, bracket-free
netlocs). -/
def urlsplit (url : List Char) : SplitResult :=
  let url1 := removeUnsafe (lstripC0 url)
  let s := splitScheme url1
  let scheme := s.1
  let url2 := s.2
  let n := if url2.take 2 = ['/', '/'] then splitNetloc url2 else ([], url2)
  let netloc := n.1
  let url3 := n.2
  let f := splitOnFirst url3 '#'
  let q := splitOnFirst f.1 '?'
  ⟨scheme, netloc, q.1, q.2, f.2⟩

/-- `p.rfind('/')` for a list known to contain `'/'` — index of the last
occurrence (junk value when absent; only used under a membership guard,
like CPython's `_splitparams`). -/
def lastSlashIdx (p : List Char) : Nat :=
  p.length - 1 - p.reverse.findIdx (fun c => c = '/')

/-- Python `str.find(';', start)`: first index `≥ start` holding `';'`. -/
def findSemiFrom (p : List Char) (start : Nat) : Option Nat :=
  ((p.drop start).findIdx? (fun c => c = ';')).map (· + start)

/-- `_splitparams`: split path parameters off the last path segment. -/
def splitparams (p : List Char) : List Char × List Char :=
  if '/' ∈ p then
    match findSemiFrom p (lastSlashIdx p) with
    | some i => (p.take i, p.drop (i + 1))
    | none => (p, [])
  else
    match p.findIdx? (fun c => c = ';') with
    | some i => (p.take i, p.drop (i + 1))
    | none => (p, [])

structure ParseResult where
  scheme : List Char
  netloc : List Char
  path : List Char
  params : List Char
  query : List Char
  fragment : List Char
deriving DecidableEq, Repr

/-- `urllib.parse.uses_netloc` (CPython 3.11). -/
def uses_netloc : List (List Char) :=
  [[], "ftp".data, "http".data, "gopher".data, "nntp".data, "telnet".data,
   "imap".data, "wais".data, "file".data, "mms".data, "https".data,
   "shttp".data, "snews".data, "prospero".data, "rtsp".data, "rtsps".data,
   "rtspu".data, "rsync".data, "svn".data, "svn+ssh".data, "sftp".data,
   "nfs".data, "git".data, "git+ssh".data, "ws".data, "wss".data]

/-- `urllib.parse.uses_params` (CPython 3.11); note it contains the empty
scheme. -/
def uses_params : List (List Char) :=
  [[], "ftp".data, "hdl".data, "prospero".data, "http".data, "imap".data,
   "https".data, "shttp".data, "rtsp".data, "rtsps".data, "rtspu".data,
   "sip".data, "sips".data, "mms".data, "sftp".data, "tel".data]

/-- `urllib.parse.urlparse` (CPython 3.11) = `urlsplit` plus parameter
splitting, guarded by `scheme in uses_params`. -/
def urlparse (url : List Char) : ParseResult :=
  let r := urlsplit url
  if r.scheme ∈ uses_params ∧ ';' ∈ r.path then
    let pp := splitparams r.path
    ⟨r.scheme, r.netloc, pp.1, pp.2, r.query, r.fragment⟩
  else
    ⟨r.scheme, r.netloc, r.path, [], r.query, r.fragment⟩

/-- `urllib.parse.urlunsplit` (CPython 3.11):
`if netloc or (scheme and scheme in uses_netloc and url[:2] != '//')`. -/
def urlunsplit (scheme netloc url query fragment : List Char) : List Char :=
  let url' :=
    if netloc ≠ [] ∨ (scheme ≠ [] ∧ scheme ∈ uses_netloc ∧ url.take 2 ≠ ['/', '/']) then
      '/' :: '/' :: (netloc ++
        (if url ≠ [] ∧ url.head? ≠ some '/' then '/' :: url else url))
    else url
  let url'' := if scheme ≠ [] then scheme ++ ':' :: url' else url'
  let url''' := if query ≠ [] then url'' ++ '?' :: query else url''
  if fragment ≠ [] then url''' ++ '#' :: fragment else url'''

/-- `urllib.parse.urlunparse`. -/
def urlunparse (scheme netloc path params query fragment : List Char) :
    List Char :=
  urlunsplit scheme netloc
    (if params ≠ [] then path ++ ';' :: params else path) query fragment

namespace URLTracker

/-- `URLTracker.normalize_url` from `agent_service.py`:
`urlparse(url.lower().rstrip("/"))`, then reassemble with `www.` removed
from the netloc (a replace-all), trailing slashes stripped from the path,
and params/query/fragment dropped. -/
def normalize_url (url : List Char) : List Char :=
  let parsed := urlparse (rstripSlash (lowerStr url))
  urlunparse parsed.scheme (removeWWW parsed.netloc)
    (rstripSlash parsed.path) [] [] []

end URLTracker

-- =========================================================================
-- TextProcessor (source/utils/text_processor.py)
-- =========================================================================

namespace TextProcessor

/-- `TextProcessor.append_non_overlapping`.  The tail of `existing` of
length `overlap_check_size` (`existing[-overlap_check_size:]`) is searched
for in `new`; when found, only the part of `new` after that occurrence is
appended, otherwise the whole of `new` is appended after a blank line. -/
def append_non_overlapping (existing new : List Char)
    (overlap_check_size : Nat := 100) : List Char :=
  if existing = [] then new
  else if new = [] then existing
  else
    let overlap_segment := existing.drop (existing.length - overlap_check_size)
    match findSub overlap_segment new with
    | some overlap_pos =>
      existing ++ new.drop (overlap_pos + overlap_segment.length)
    | none => existing ++ '\n' :: '\n' :: new

/-- Python `text.rfind("\n", start, stop)` searched downward: highest index
`i` with `start ≤ i < stop` (and `i` in range) such that `text[i] = '\n'`;
the fuel argument is the exclusive upper bound. -/
def rfindNewlineAux (text : List Char) (start : Nat) : Nat → Option Nat
  | 0 => none
  | n + 1 =>
    if start ≤ n ∧ text[n]? = some '\n' then some n
    else rfindNewlineAux text start n

/-- The end index chosen for the chunk starting at `start`: `start +
chunk_size`, moved back to just after the last `'\n'` strictly inside the
window when the window does not already reach the end of the text. -/
def chunkEnd (text : List Char) (chunk_size start : Nat) : Nat :=
  let stop := start + chunk_size
  if stop < text.length then
    match rfindNewlineAux text start stop with
    | some ln => if start < ln then ln + 1 else stop
    | none => stop
  else stop

/-- The `while start < len(text)` loop of `split_into_chunks` (the
`0 < chunk_size` guard delimits the domain on which the Python loop
terminates; every claim assumes a positive chunk size). -/
def split_into_chunks_aux (text : List Char) (chunk_size start : Nat) :
    List (List Char) :=
  if h : start < text.length ∧ 0 < chunk_size then
    ((text.drop start).take (chunkEnd text chunk_size start - start))
      :: split_into_chunks_aux text chunk_size (chunkEnd text chunk_size start)
  else []
termination_by text.length - start
decreasing_by
  have hlt : start < chunkEnd text chunk_size start := by
    unfold chunkEnd
    dsimp only
    split
    · split
      · split <;> omega
      · omega
    · omega
  omega

/-- `TextProcessor.split_into_chunks`. -/
def split_into_chunks (text : List Char) (chunk_size : Nat := 150000) :
    List (List Char) :=
  if text.length ≤ chunk_size then [text]
  else split_into_chunks_aux text chunk_size 0

/-- `TextProcessor.normalize_url` (relative-URL resolution against a
domain; unrelated to `URLTracker.normalize_url`). -/
def normalize_url (url domain : String) : String :=
  if url = "" then ""
  else if "http".data.isPrefixOf url.data then url
  else if "/".data.isPrefixOf url.data then "https://" ++ domain ++ url
  else "https://" ++ domain ++ "/" ++ url

end TextProcessor

-- =========================================================================
-- URLTracker state (source/service/agent_service.py)
-- =========================================================================

/-- Python whitespace stripped by `str.strip()`. -/
def isPyWhitespace (c : Char) : Bool :=
  c = ' ' || c = '\t' || c = '\n' || c = '\r' || c = '\x0b' || c = '\x0c'

/-- Python `str.strip()`. -/
def pyStrip (s : String) : String :=
  ⟨((s.data.dropWhile isPyWhitespace).reverse.dropWhile isPyWhitespace).reverse⟩

/-- The two `set[str]` fields of `URLTracker`; Python sets are modelled as
lists whose membership is the set membership (insertion is a cons). -/
structure URLTracker where
  visited : List String
  scraped_jobs : List String
deriving DecidableEq, Repr

namespace URLTracker

/-- `URLTracker.normalize_url` on `String`. -/
def normalize_url_s (url : String) : String := ⟨normalize_url url.data⟩

/-- `URLTracker.extract_domain`: strip, prefix a scheme when missing, then
take the lowercased netloc. -/
def extract_domain (url : String) : String :=
  if url = "" then ""
  else
    let u := pyStrip url
    let u' := if "http://".data.isPrefixOf u.data
                 || "https://".data.isPrefixOf u.data then u
              else "https://" ++ u
    ⟨lowerStr (urlsplit u'.data).netloc⟩

/-- `URLTracker.normalize_full_path`. -/
def normalize_full_path (url domain : String) : String :=
  if "/".data.isPrefixOf url.data ∧ domain ≠ "" then
    (⟨rstripSlash domain.data⟩ : String) ++ url
  else url

def mark_visited (t : URLTracker) (url : String) : URLTracker :=
  { t with visited := normalize_url_s url :: t.visited }

def mark_job_scraped (t : URLTracker) (url : String) : URLTracker :=
  { t with scraped_jobs := normalize_url_s url :: t.scraped_jobs }

def is_visited (t : URLTracker) (url : String) : Bool :=
  t.visited.contains (normalize_url_s url)

def is_job_scraped (t : URLTracker) (url : String) : Bool :=
  t.scraped_jobs.contains (normalize_url_s url)

/-- `URLTracker.should_skip`: normalized URL in either set. -/
def should_skip (t : URLTracker) (url : String) : Bool :=
  t.visited.contains (normalize_url_s url)
    || t.scraped_jobs.contains (normalize_url_s url)

end URLTracker

-- =========================================================================
-- TrackedJobScraper.scrape_jobs (source/service/agent_service.py)
-- =========================================================================

/-- Values stored in the Python result dictionaries that the claims
inspect: strings, booleans and `None`. -/
inductive PyVal where
  | s : String → PyVal
  | b : Bool → PyVal
  | none : PyVal
deriving DecidableEq, Repr

/-- A Python `dict[str, Any]` with insertion order, as used for
`job.details`. -/
abbrev Details := List (String × PyVal)

structure JobEntry where
  title : String
  url : String
  details : Option Details := Option.none
deriving DecidableEq, Repr

/-- The `ScrapeResult` dataclass (`success: Optional[bool] = True`,
`error`/`message` default `None`). -/
structure ScrapeResult where
  jobs : List JobEntry
  visited_urls : List String
  job_detail_urls : List String
  error : Option String := Option.none
  message : Option String := Option.none
  success : Bool := true
deriving DecidableEq, Repr

/-- One entry of the classifier's `jobs_listed_on_page`; a missing
`job_url`/`title` behaves like `""` under the `.get` defaults and the
`or` fallback used by the code. -/
structure JobItem where
  title : String := ""
  job_url : String := ""
deriving DecidableEq, Repr

structure NavTarget where
  url : String := ""
  link_text : String := ""
deriving DecidableEq, Repr

structure PaginationInfo where
  is_paginated_page : Bool := false
  has_more_pages : Bool := false
deriving DecidableEq, Repr

/-- The analyzer's listing-mode response dictionary, with the `.get`
defaults of the code built in (absent key = default value). -/
structure AnalysisResponse where
  page_category : String := ""
  next_action : String := ""
  next_action_target : NavTarget := {}
  jobs_listed_on_page : List JobItem := []
  pagination : PaginationInfo := {}
deriving DecidableEq, Repr

/-- `AnalysisResult` from `job_analyzer.py` (the `error` field is the
string form `str(analysis.error)` already). -/
structure AnalyzerResult where
  success : Bool
  response : AnalysisResponse := {}
  error : String := ""
deriving DecidableEq, Repr

/-- The external collaborators' behaviour at one loop iteration:
the analyzer's answer, whether `get_element_by_prompt` finds a clickable
element in the link-text branch, the URL the browser lands on after
clicking it, and the analyzer answers for the text chunks returned by the
pagination handlers in the `jobs_listed` branch. -/
structure StepOracle where
  analysis : AnalyzerResult
  buttonFound : Bool := false
  clickUrl : String := ""
  chunkAnalyses : List AnalyzerResult := []
deriving Repr

/-- `JobScraperConfig` (only `max_navigation` affects control flow; the
wait durations and API credentials are irrelevant to the claims). -/
structure JobScraperConfig where
  max_navigation : Nat := 2
deriving DecidableEq, Repr

namespace TrackedJobScraper

/-- The loop state of `TrackedJobScraper.scrape_jobs`: the tracker
(`self._tracker`), the browser page's current URL, `self._current_visited`,
the local variables `url`, `nav_count`, `all_jobs`, and — as observation
instrumentation only — the list of URLs passed to `page.goto`. -/
structure EngineState where
  tracker : URLTracker
  browserUrl : String
  currentVisited : List String
  url : String
  navCount : Nat
  allJobs : List JobEntry
  gotos : List String
deriving Repr

/-- `TrackedJobScraper._navigate(u)`: `page.goto(u)` then
`mark_visited(u)` and `self._current_visited.append(u)`. -/
def navigate (s : EngineState) (u : String) : EngineState :=
  { s with browserUrl := u,
           tracker := s.tracker.mark_visited u,
           currentVisited := s.currentVisited ++ [u],
           gotos := s.gotos ++ [u] }

/-- `ScrapeResult(jobs=jobs, visited_urls=visited,
job_detail_urls=[j.url for j in jobs if j.url])`. -/
def finishResult (jobs : List JobEntry) (visited : List String) :
    ScrapeResult :=
  { jobs := jobs, visited_urls := visited,
    job_detail_urls := (jobs.filter (fun j => j.url ≠ "")).map (fun j => j.url) }

/-- The `single_job_posting` harvest: `job_url = job.get("job_url") or url`
(so an absent or empty `job_url` defaults to the loop's `url`), append a
`JobEntry`, and mark non-empty URLs as scraped. -/
def harvestSingle (current_url : String) (acc : URLTracker × List JobEntry)
    (items : List JobItem) : URLTracker × List JobEntry :=
  items.foldl
    (fun acc item =>
      let job_url := if item.job_url = "" then current_url else item.job_url
      let t := if job_url ≠ "" then acc.1.mark_job_scraped job_url else acc.1
      (t, acc.2 ++ [{ title := item.title, url := job_url }]))
    acc

/-- The `jobs_listed` harvest: `job_url = job.get("job_url", "")`, append,
and mark non-empty URLs as scraped. -/
def harvestListed (acc : URLTracker × List JobEntry)
    (items : List JobItem) : URLTracker × List JobEntry :=
  items.foldl
    (fun acc item =>
      let t := if item.job_url ≠ "" then acc.1.mark_job_scraped item.job_url
               else acc.1
      (t, acc.2 ++ [{ title := item.title, url := item.job_url }]))
    acc

/-- Re-analysis of the text chunks returned by a pagination handler:
harvest `jobs_listed_on_page` from every successful chunk analysis. -/
def harvestChunks (acc : URLTracker × List JobEntry)
    (chunks : List AnalyzerResult) : URLTracker × List JobEntry :=
  chunks.foldl
    (fun acc a =>
      if a.success then harvestListed acc a.response.jobs_listed_on_page
      else acc)
    acc

structure RunOutcome where
  result : ScrapeResult
  state : EngineState
deriving Repr

/-- The `while True:` loop of `TrackedJobScraper.scrape_jobs`, one oracle
step per iteration.  Branch order is the code's: analyzer failure,
`not_job_related`, `single_job_posting`, `next_action == "navigate"`
(its four sub-cases: hop budget exhausted, fresh-URL navigation with the
visited-set cycle guard, link-text click, no target), `jobs_listed` with
its three pagination sub-cases, and the fail-safe `break`. -/
def scrapeLoop (cfg : JobScraperConfig) (oracle : Nat → StepOracle)
    (i : Nat) (s : EngineState) : RunOutcome :=
  let a := (oracle i).analysis
  if a.success = false then
    ⟨{ jobs := s.allJobs, visited_urls := s.currentVisited,
       job_detail_urls :=
         (s.allJobs.filter (fun j => j.url ≠ "")).map (fun j => j.url),
       error := some a.error, message := some "Ai analysis failed",
       success := false }, s⟩
  else
    let r := a.response
    if r.page_category = "not_job_related" then
      ⟨finishResult s.allJobs s.currentVisited, s⟩
    else if r.page_category = "single_job_posting" then
      let h := harvestSingle s.url (s.tracker, s.allJobs) r.jobs_listed_on_page
      let s' := { s with tracker := h.1, allJobs := h.2 }
      ⟨finishResult s'.allJobs s'.currentVisited, s'⟩
    else if r.next_action = "navigate" then
      if hle : cfg.max_navigation ≤ s.navCount then
        ⟨finishResult s.allJobs s.currentVisited, s⟩
      else
        let page_host : String := ⟨(urlsplit s.browserUrl.data).netloc⟩
        let nav_url :=
          TextProcessor.normalize_url r.next_action_target.url page_host
        if nav_url ≠ "" ∧ nav_url ≠ s.url then
          if s.tracker.should_skip nav_url then
            ⟨finishResult s.allJobs s.currentVisited, s⟩
          else
            scrapeLoop cfg oracle (i + 1)
              (navigate { s with navCount := s.navCount + 1, url := nav_url }
                nav_url)
        else
          if r.next_action_target.link_text ≠ "" then
            if (oracle i).buttonFound then
              let cu := (oracle i).clickUrl
              scrapeLoop cfg oracle (i + 1)
                { s with navCount := s.navCount + 1,
                         browserUrl := cu,
                         tracker := s.tracker.mark_visited cu,
                         currentVisited := s.currentVisited ++ [cu] }
            else
              ⟨finishResult s.allJobs s.currentVisited,
               { s with navCount := s.navCount + 1 }⟩
          else
            ⟨finishResult s.allJobs s.currentVisited, s⟩
    else if r.page_category = "jobs_listed" then
      let h1 := harvestListed (s.tracker, s.allJobs) r.jobs_listed_on_page
      let pag := r.pagination
      if !pag.is_paginated_page && pag.has_more_pages then
        let h2 := harvestChunks h1 (oracle i).chunkAnalyses
        let s' := { s with tracker := h2.1, allJobs := h2.2 }
        ⟨finishResult s'.allJobs s'.currentVisited, s'⟩
      else if pag.is_paginated_page then
        let h2 := harvestChunks h1 (oracle i).chunkAnalyses
        let s' := { s with tracker := h2.1, allJobs := h2.2 }
        ⟨finishResult s'.allJobs s'.currentVisited, s'⟩
      else
        let s' := { s with tracker := h1.1, allJobs := h1.2 }
        ⟨finishResult s'.allJobs s'.currentVisited, s'⟩
    else
      ⟨finishResult s.allJobs s.currentVisited, s⟩
termination_by cfg.max_navigation + 1 - s.navCount
decreasing_by all_goals (simp [navigate]; omega)

/-- `TrackedJobScraper.scrape_jobs(url)`: the early `should_skip` return,
the initial `_navigate`, then the loop. -/
def scrape_jobs (cfg : JobScraperConfig) (oracle : Nat → StepOracle)
    (tracker : URLTracker) (browserUrl0 : String) (url : String) :
    RunOutcome :=
  let s0 : EngineState :=
    { tracker := tracker, browserUrl := browserUrl0, currentVisited := [],
      url := url, navCount := 0, allJobs := [], gotos := [] }
  if tracker.should_skip url then
    ⟨{ jobs := [], visited_urls := [], job_detail_urls := [] }, s0⟩
  else
    scrapeLoop cfg oracle 0 (navigate s0 url)

end TrackedJobScraper

-- =========================================================================
-- ATSDetector (source/utils/ats_detector.py)
-- =========================================================================

namespace ATSDetector

/-- `KNOWN_ATS_DOMAINS` in source listing order (the Python value is a
`frozenset`; iteration order is modelled by the source order — no claim
depends on which of several simultaneous matches wins). -/
def KNOWN_ATS_DOMAINS : List String :=
  ["allhires.com", "amris.com", "earcu.com", "ashbyhq.com", "avature.net",
   "bamboohr.com", "beapplied.com", "brassring.com", "breezy.hr",
   "brighthr.com", "bullhorn.com", "candidatemanager.net",
   "changeworknow.co.uk", "ciphr.com", "civica.com",
   "cloudonlinerecruitment.co.uk", "cohesionrecruitment.com",
   "cornerstoneondemand.com", "cvminder.co.uk", "cvmail.net",
   "darwinbox.com", "dayforcehcm.com", "eightfold.ai",
   "employmenthero.com", "havaspeople.com", "eploy.com", "eteach.com",
   "factorialhr.com", "firefishsoftware.com", "fourth.com", "gohire.io",
   "greenhouse.com", "greenhouse.io", "groupgti.com", "harbourats.com",
   "harri.com", "healthboxhr.com", "hibob.com", "hirebridge.com",
   "hirehive.com", "hireroad.com", "hireserve.com", "icims.com",
   "inploi.com", "webitrent.com", "jazzhr.com", "jobtrain.co.uk",
   "jobadder.com", "jobvite.com", "kallidus.com", "lever.co",
   "logicmelon.com", "lumesse-engage.com", "manatal.com", "mynewterm.com",
   "workday.com", "myworkdayjobs.com", "networxrecruitment.com",
   "iris.co.uk", "occupop.com", "cezannehr.com", "oleeo.com",
   "oraclecloud.com", "oracleoutsourcing.com", "pageuppeople.com",
   "peoplehr.com", "personio.com", "personio.de", "pinpointhq.com",
   "reach-ats.com", "recruitgenie.co.uk", "recruitee.com",
   "recruiterbox.com", "recruiterflow.com", "recruitive.com",
   "seemehired.com", "occy.com", "smartrecruiters.com", "staffsavvy.com",
   "successfactors.eu", "successfactors.com", "cegid.com",
   "talos360.co.uk", "teamtailor.com", "tes.com", "tribepad.com",
   "trac.jobs", "ultipro.com", "vacancyfiller.co.uk", "webrecruit.co",
   "workable.com", "adp.com", "zoho.com", "applytojob.com",
   "recruitingbypaycor.com", "paylocity.com", "paycomonline.net",
   "applicantpro.com", "hrmdirect.com", "clearcompany.com",
   "talentreef.com"]

/-- `extract_base_domain`: lowercased netloc with every `www.` removed,
reduced to its last two dot-separated parts when it has at least two. -/
def extract_base_domain (url : String) : String :=
  let domain := removeWWW (lowerStr (urlsplit url.data).netloc)
  let parts := domain.splitOn '.'
  if 2 ≤ parts.length then
    ⟨List.intercalate ['.'] (parts.drop (parts.length - 2))⟩
  else ⟨domain⟩

/-- `extract_full_domain`. -/
def extract_full_domain (url : String) : String :=
  ⟨removeWWW (lowerStr (urlsplit url.data).netloc)⟩

/-- `find_matching_ats`: first known ATS domain matching by base domain,
subdomain suffix, or full domain. -/
def find_matching_ats (url : String) : Option String :=
  let base := extract_base_domain url
  let full := extract_full_domain url
  KNOWN_ATS_DOMAINS.find?
    (fun d => base = d || ("." ++ d).data.isSuffixOf full.data || full = d)

/-- `detect_ats(job_url, company_domain)` as the result dictionary. -/
def detect_ats (job_url company_domain : String) : Details :=
  let company_domain_clean :=
    if "http".data.isPrefixOf company_domain.data then
      extract_base_domain company_domain
    else
      let c := removeWWW (lowerStr company_domain.data)
      let parts := c.splitOn '.'
      if 2 ≤ parts.length then
        (⟨List.intercalate ['.'] (parts.drop (parts.length - 2))⟩ : String)
      else ⟨c⟩
  let job_domain := extract_base_domain job_url
  let is_external := job_domain ≠ company_domain_clean
  let known := find_matching_ats job_url
  let is_ats := known.isSome || is_external
  let ats_provider : PyVal :=
    match known with
    | some p => PyVal.s p
    | Option.none => if is_external then PyVal.s job_domain else PyVal.none
  let reason :=
    match known with
    | some p => "Known ATS provider: " ++ p
    | Option.none =>
      if is_external then
        "External domain (" ++ job_domain ++ ") differs from company ("
          ++ company_domain_clean ++ ")"
      else "Internal application on company domain"
  [("is_ats", PyVal.b is_ats),
   ("is_external_application", PyVal.b is_external),
   ("is_known_ats", PyVal.b known.isSome),
   ("ats_provider", ats_provider),
   ("job_domain", PyVal.s job_domain),
   ("company_domain", PyVal.s company_domain_clean),
   ("detection_reason", PyVal.s reason)]

end ATSDetector

-- =========================================================================
-- TrackedJobScraper.scrape_job_details (source/service/agent_service.py)
-- =========================================================================

/-- Python `d[k] = v`: overwrite in place, or append a new key. -/
def setKey (d : Details) (k : String) (v : PyVal) : Details :=
  if d.any (fun kv => kv.1 = k) then
    d.map (fun kv => if kv.1 = k then (k, v) else kv)
  else d ++ [(k, v)]

/-- Python `d[k]` for a key known to be present. -/
def getKey (d : Details) (k : String) : PyVal :=
  ((d.find? (fun kv => kv.1 = k)).map (fun kv => kv.2)).getD PyVal.none

namespace TrackedJobScraper

/-- The detail-mode analyzer answer. -/
structure DetailAnalysis where
  success : Bool
  response : Details := []
  error : String := ""
deriving DecidableEq, Repr

/-- The collaborators' behaviour while enriching one job: whether
`_navigate` raises, whether text extraction raises (and the extracted
text), and whether the detail analyzer call raises (and its answer).
`Except.error e` models a raised exception with message `e`. -/
structure DetailOracle where
  navOutcome : Except String Unit := Except.ok ()
  extractOutcome : Except String String := Except.ok ""
  analyzeOutcome : Except String DetailAnalysis := Except.ok {success := true}
deriving Repr

/-- State threaded through `scrape_job_details`: the tracker, the browser
page URL, and the function-scoped Python local `text_extracted`, which is
only (re)bound when a text extraction completes — reading it while unbound
raises `UnboundLocalError`. -/
structure DetailState where
  tracker : URLTracker
  browserUrl : String
  lastExtracted : Option String := Option.none
deriving Repr

/-- The code after the `try`/`except` of one `scrape_job_details`
iteration: ATS detection, the `if not job_doc: continue` guard, and the
document-field assignments — including the read of `text_extracted`
outside the `try`, which raises when that local was never assigned. -/
def finishJob (domain : String) (filter_url : Option String)
    (st : DetailState) (jurl : String) (details : Details) (job : JobEntry) :
    Except String (DetailState × JobEntry) :=
  let job' := { job with url := jurl, details := some details }
  let ats := ATSDetector.detect_ats jurl domain
  if details = [] then Except.ok (st, job')
  else
    let d1 := setKey details "main_domain" (PyVal.s domain)
    match st.lastExtracted with
    | Option.none =>
      Except.error
        "UnboundLocalError: local variable text_extracted referenced before assignment"
    | some raw =>
      let d2 := setKey d1 "raw_text" (PyVal.s raw)
      let d3 := setKey d2 "filter_domain"
        (match filter_url with | some f => PyVal.s f | Option.none => PyVal.none)
      let d4 := setKey d3 "url" (PyVal.s jurl)
      let d5 := setKey d4 "is_known_ats" (getKey ats "is_known_ats")
      let d6 := setKey d5 "is_ats" (getKey ats "is_ats")
      let d7 := setKey d6 "is_external_application"
        (getKey ats "is_external_application")
      let d8 := setKey d7 "ats_provider" (getKey ats "ats_provider")
      let d9 := setKey d8 "detection_reason" (getKey ats "detection_reason")
      Except.ok (st, { job' with details := some d9 })

/-- One iteration of the `for i, job in enumerate(jobs)` loop of
`scrape_job_details`: the two `continue` guards, the URL re-resolution
against the referring page's domain, the guarded navigation / extraction /
analysis (every failure caught and turned into an error-marker `details`),
then `finishJob`. -/
def processJob (domain : String) (filter_url : Option String)
    (skip_already_scraped : Bool) (o : DetailOracle) (st : DetailState)
    (job : JobEntry) : Except String (DetailState × JobEntry) :=
  if job.url = "" then Except.ok (st, job)
  else if skip_already_scraped && st.tracker.is_visited job.url then
    Except.ok (st, job)
  else
    let filter_domain := URLTracker.extract_domain st.browserUrl
    let jurl := URLTracker.normalize_full_path job.url filter_domain
    match o.navOutcome with
    | Except.error e =>
      finishJob domain filter_url st jurl
        [("error", PyVal.s e),
         ("message", PyVal.s "Error scraping job details"),
         ("job_url", PyVal.s jurl)] job
    | Except.ok _ =>
      let st1 := { st with browserUrl := jurl,
                           tracker := st.tracker.mark_visited jurl }
      match o.extractOutcome with
      | Except.error e =>
        finishJob domain filter_url st1 jurl
          [("error", PyVal.s e),
           ("message", PyVal.s "Error scraping job details"),
           ("job_url", PyVal.s jurl)] job
      | Except.ok txt =>
        let st2 := { st1 with lastExtracted := some txt }
        match o.analyzeOutcome with
        | Except.error e =>
          finishJob domain filter_url st2 jurl
            [("error", PyVal.s e),
             ("message", PyVal.s "Error scraping job details"),
             ("job_url", PyVal.s jurl)] job
        | Except.ok ar =>
          if ar.success then finishJob domain filter_url st2 jurl ar.response job
          else
            finishJob domain filter_url st2 jurl
              [("error", PyVal.s ar.error),
               ("message", PyVal.s "AI api error")] job

/-- The whole `for` loop; an uncaught exception aborts the remaining
jobs (and the function). -/
def detailLoop (domain : String) (filter_url : Option String)
    (skip_already_scraped : Bool) (oracle : Nat → DetailOracle) (i : Nat)
    (st : DetailState) :
    List JobEntry → Except String (DetailState × List JobEntry)
  | [] => Except.ok (st, [])
  | j :: rest =>
    match processJob domain filter_url skip_already_scraped (oracle i) st j with
    | Except.error e => Except.error e
    | Except.ok sj =>
      match detailLoop domain filter_url skip_already_scraped oracle (i + 1)
          sj.1 rest with
      | Except.error e => Except.error e
      | Except.ok sr => Except.ok (sr.1, sj.2 :: sr.2)

/-- `TrackedJobScraper.scrape_job_details(domain, jobs, filter_url,
skip_already_scraped)`. -/
def scrape_job_details (domain : String) (jobs : List JobEntry)
    (filter_url : Option String) (skip_already_scraped : Bool)
    (oracle : Nat → DetailOracle) (st : DetailState) :
    Except String (List JobEntry) :=
  (detailLoop domain filter_url skip_already_scraped oracle 0 st jobs).map
    (fun r => r.2)

end TrackedJobScraper

-- =========================================================================
-- Lemmas: substring search
-- =========================================================================

theorem findSub_isPrefixOf {needle hay : List Char} {p : Nat}
    (h : findSub needle hay = some p) :
    needle.isPrefixOf (hay.drop p) = true := by
  induction hay generalizing p with
  | nil =>
    unfold findSub at h
    split at h
    · rename_i hpre
      simp only [Option.some.injEq] at h
      subst h
      rw [List.drop_zero]
      exact hpre
    · exact absurd h (by simp)
  | cons c t ih =>
    unfold findSub at h
    split at h
    · rename_i hpre
      simp only [Option.some.injEq] at h
      subst h
      rw [List.drop_zero]
      exact hpre
    · cases hq : findSub needle t with
      | none => rw [hq] at h; simp at h
      | some q =>
        rw [hq] at h
        simp only [Option.map_some', Option.some.injEq] at h
        subst h
        rw [List.drop_succ_cons]
        exact ih hq

theorem findSub_le_length {needle hay : List Char} {p : Nat}
    (h : findSub needle hay = some p) : p ≤ hay.length := by
  induction hay generalizing p with
  | nil =>
    unfold findSub at h
    split at h
    · simp only [Option.some.injEq] at h
      omega
    · exact absurd h (by simp)
  | cons c t ih =>
    unfold findSub at h
    split at h
    · simp only [Option.some.injEq] at h
      omega
    · cases hq : findSub needle t with
      | none => rw [hq] at h; simp at h
      | some q =>
        rw [hq] at h
        simp only [Option.map_some', Option.some.injEq] at h
        have := ih hq
        simp only [List.length_cons]
        omega

theorem findSub_add_needle_le {needle hay : List Char} {p : Nat}
    (h : findSub needle hay = some p) : p + needle.length ≤ hay.length := by
  have h1 := List.isPrefixOf_iff_prefix.mp (findSub_isPrefixOf h)
  have h2 := h1.length_le
  rw [List.length_drop] at h2
  have h3 := findSub_le_length h
  omega

-- =========================================================================
-- C6: append_non_overlapping and overlap length
-- =========================================================================

/-- C6, counterexample.  The claim asserts that *any* suffix/prefix overlap
of `k > 0` characters is removed.  With `first = "ab"`, `second = "bc"` the
overlap is `k = 1` (`"b"`), yet `append_non_overlapping` searches `second`
for the whole 100-character tail window of `first` (here all of `"ab"`),
finds nothing, and appends with a blank-line separator: the result
`"ab\n\nbc"` has length 6, not `2 + 2 - 1 = 3`. -/
theorem c6_counterexample :
    "bc".data.take 1 = "ab".data.drop ("ab".data.length - 1)
    ∧ (TextProcessor.append_non_overlapping "ab".data "bc".data).length = 6
    ∧ ¬((TextProcessor.append_non_overlapping "ab".data "bc".data).length
        = "ab".data.length + "bc".data.length - 1) := by
  decide

/-- C6, amended: when the second text's prefix overlaps the first text's
suffix by `k` characters with `k` at least the overlap-check window
`min 100 (length first)`, and the window's first occurrence inside `second`
is exactly at the end of that overlap, `append_non_overlapping` returns a
string of length `len first + len second - k` (not `len first + len
second`). -/
theorem append_non_overlapping_overlap_length
    (first second : List Char) (k : Nat)
    (hk : 0 < k) (hk1 : k ≤ first.length) (hk2 : k ≤ second.length)
    (hseg : min 100 first.length ≤ k)
    (hov : second.take k = first.drop (first.length - k))
    (hfind : findSub (first.drop (first.length - 100)) second
      = some (k - min 100 first.length)) :
    (TextProcessor.append_non_overlapping first second).length
      = first.length + second.length - k := by
  have hf : first ≠ [] := by
    intro hnil
    rw [hnil] at hk1
    simp at hk1
    omega
  have hs : second ≠ [] := by
    intro hnil
    rw [hnil] at hk2
    simp at hk2
    omega
  have hslen : (first.drop (first.length - 100)).length = min 100 first.length := by
    rw [List.length_drop]
    omega
  unfold TextProcessor.append_non_overlapping
  rw [if_neg hf, if_neg hs]
  dsimp only
  rw [hfind]
  rw [List.length_append, List.length_drop, hslen]
  omega

/-- Witness for the amended C6 at `first = "ab"`, `second = "abc"`,
`k = 2`: the combined text is `"abc"` of length `2 + 3 - 2 = 3`. -/
theorem append_non_overlapping_overlap_length_witness :
    0 < 2 ∧ (TextProcessor.append_non_overlapping "ab".data "abc".data).length
      = "ab".data.length + "abc".data.length - 2 :=
  ⟨by decide,
   append_non_overlapping_overlap_length "ab".data "abc".data 2
     (by decide) (by decide) (by decide) (by decide) (by decide) (by decide)⟩

-- =========================================================================
-- C9: split_into_chunks partitions the text
-- =========================================================================

theorem rfindNewlineAux_lt {text : List Char} {start : Nat} :
    ∀ {n i : Nat}, TextProcessor.rfindNewlineAux text start n = some i →
      i < n ∧ start ≤ i := by
  intro n
  induction n with
  | zero => intro i h; simp [TextProcessor.rfindNewlineAux] at h
  | succ m ih =>
    intro i h
    unfold TextProcessor.rfindNewlineAux at h
    split at h
    · rename_i hcond
      simp only [Option.some.injEq] at h
      subst h
      exact ⟨Nat.lt_succ_self _, hcond.1⟩
    · have := ih h
      omega

theorem chunkEnd_gt (text : List Char) (chunk_size start : Nat)
    (h : 0 < chunk_size) : start < TextProcessor.chunkEnd text chunk_size start := by
  unfold TextProcessor.chunkEnd
  dsimp only
  split
  · split
    · split <;> omega
    · omega
  · omega

theorem chunkEnd_le (text : List Char) (chunk_size start : Nat) :
    TextProcessor.chunkEnd text chunk_size start ≤ start + chunk_size := by
  unfold TextProcessor.chunkEnd
  dsimp only
  split
  · rename_i hstop
    cases hr : TextProcessor.rfindNewlineAux text start (start + chunk_size) with
    | none => simp [hr]
    | some ln =>
      have hb := rfindNewlineAux_lt hr
      simp only [hr]
      split <;> omega
  · omega

theorem split_into_chunks_aux_join (text : List Char) (chunk_size : Nat)
    (hcs : 0 < chunk_size) :
    ∀ start, (TextProcessor.split_into_chunks_aux text chunk_size start).flatten
      = text.drop start := by
  have H : ∀ n start, text.length - start ≤ n →
      (TextProcessor.split_into_chunks_aux text chunk_size start).flatten
        = text.drop start := by
    intro n
    induction n with
    | zero =>
      intro start hs
      rw [TextProcessor.split_into_chunks_aux, dif_neg (by omega)]
      rw [List.drop_eq_nil_of_le (by omega)]
      rfl
    | succ m ih =>
      intro start hs
      by_cases hc : start < text.length
      · rw [TextProcessor.split_into_chunks_aux, dif_pos ⟨hc, hcs⟩]
        have hgt := chunkEnd_gt text chunk_size start hcs
        rw [List.flatten_cons, ih (TextProcessor.chunkEnd text chunk_size start) (by omega)]
        have h2 : text.drop (TextProcessor.chunkEnd text chunk_size start)
            = (text.drop start).drop
                (TextProcessor.chunkEnd text chunk_size start - start) := by
          rw [List.drop_drop]
          congr 1
          omega
        rw [h2, List.take_append_drop]
      · rw [TextProcessor.split_into_chunks_aux, dif_neg (by omega)]
        rw [List.drop_eq_nil_of_le (by omega)]
        rfl
  intro start
  exact H (text.length - start) start le_rfl

theorem split_into_chunks_aux_sizes (text : List Char) (chunk_size : Nat) :
    ∀ start, ∀ c ∈ TextProcessor.split_into_chunks_aux text chunk_size start,
      c.length ≤ chunk_size := by
  have H : ∀ n start, text.length - start ≤ n →
      ∀ c ∈ TextProcessor.split_into_chunks_aux text chunk_size start,
        c.length ≤ chunk_size := by
    intro n
    induction n with
    | zero =>
      intro start hs
      rw [TextProcessor.split_into_chunks_aux, dif_neg (by omega)]
      intro c hc
      simp at hc
    | succ m ih =>
      intro start hs
      by_cases hc : start < text.length ∧ 0 < chunk_size
      · rw [TextProcessor.split_into_chunks_aux, dif_pos hc]
        intro c hmem
        rcases List.mem_cons.mp hmem with hmem | hmem
        · subst hmem
          have h1 := chunkEnd_le text chunk_size start
          calc ((text.drop start).take
                  (TextProcessor.chunkEnd text chunk_size start - start)).length
              ≤ TextProcessor.chunkEnd text chunk_size start - start := by
                rw [List.length_take]; omega
            _ ≤ chunk_size := by omega
        · have hgt := chunkEnd_gt text chunk_size start hc.2
          exact ih (TextProcessor.chunkEnd text chunk_size start) (by omega) c hmem
      · rw [TextProcessor.split_into_chunks_aux, dif_neg hc]
        intro c hcm
        simp at hcm
  intro start
  exact H (text.length - start) start le_rfl

/-- C9: for every text and every positive chunk size,
`TextProcessor.split_into_chunks` returns chunks whose in-order
concatenation is exactly the text, each chunk having length at most
`chunk_size`; when the text is no longer than `chunk_size` the result is
the single-element list `[t]`. -/
theorem split_into_chunks_spec (t : List Char) (chunk_size : Nat)
    (h : 0 < chunk_size) :
    (TextProcessor.split_into_chunks t chunk_size).flatten = t
    ∧ (∀ c ∈ TextProcessor.split_into_chunks t chunk_size,
        c.length ≤ chunk_size)
    ∧ (t.length ≤ chunk_size →
        TextProcessor.split_into_chunks t chunk_size = [t]) := by
  unfold TextProcessor.split_into_chunks
  by_cases hle : t.length ≤ chunk_size
  · rw [if_pos hle]
    refine ⟨by simp, ?_, fun _ => rfl⟩
    intro c hc
    simp only [List.mem_singleton] at hc
    subst hc
    exact hle
  · rw [if_neg hle]
    refine ⟨?_, split_into_chunks_aux_sizes t chunk_size 0,
      fun hcontra => absurd hcontra hle⟩
    rw [split_into_chunks_aux_join t chunk_size h 0, List.drop_zero]

/-- Witness for C9 at `t = "ab\ncd"`, `chunk_size = 3`. -/
theorem split_into_chunks_spec_witness :
    0 < 3
    ∧ ((TextProcessor.split_into_chunks "ab\ncd".data 3).flatten = "ab\ncd".data
      ∧ (∀ c ∈ TextProcessor.split_into_chunks "ab\ncd".data 3, c.length ≤ 3)
      ∧ ("ab\ncd".data.length ≤ 3 →
          TextProcessor.split_into_chunks "ab\ncd".data 3 = ["ab\ncd".data])) :=
  ⟨by decide, split_into_chunks_spec "ab\ncd".data 3 (by decide)⟩

-- =========================================================================
-- C3: analyzer failure terminates the loop with partial results
-- =========================================================================

section ScraperTheorems

open TrackedJobScraper

/-- C3: whenever the analyzer reports failure at some iteration of
`scrape_jobs`, the loop returns at that iteration — no retry, no further
navigation — with the jobs accumulated so far, `success = false` and the
analyzer's error message; in particular a failure on the seed page yields
`jobs = []`, `success = false` and the error set (the seed is the only
visited URL). -/
theorem analyzer_failure_stops_loop
    (cfg : JobScraperConfig) (oracle : Nat → StepOracle) (i : Nat)
    (s : EngineState)
    (hfail : (oracle i).analysis.success = false) :
    scrapeLoop cfg oracle i s =
      ⟨{ jobs := s.allJobs, visited_urls := s.currentVisited,
         job_detail_urls :=
           (s.allJobs.filter (fun j => j.url ≠ "")).map (fun j => j.url),
         error := some (oracle i).analysis.error,
         message := some "Ai analysis failed", success := false }, s⟩
    ∧ ∀ (tracker : URLTracker) (b u : String),
        tracker.should_skip u = false →
        (oracle 0).analysis.success = false →
        (scrape_jobs cfg oracle tracker b u).result =
          { jobs := [], visited_urls := [u], job_detail_urls := [],
            error := some (oracle 0).analysis.error,
            message := some "Ai analysis failed", success := false } := by
  constructor
  · rw [scrapeLoop]
    simp [hfail]
  · intro tracker b u hskip hfail0
    rw [scrape_jobs]
    simp only [hskip, Bool.false_eq_true, if_false]
    rw [scrapeLoop]
    simp [hfail0, navigate]

/-- Witness for C3. -/
theorem analyzer_failure_stops_loop_witness :
    ((fun _ => ({ analysis := { success := false, error := "boom" } } : StepOracle)) (0 : Nat)).analysis.success = false
    ∧ (scrapeLoop {} (fun _ => { analysis := { success := false, error := "boom" } }) 0
        ⟨⟨[], []⟩, "", [], "", 0, [], []⟩ =
        ⟨{ jobs := [], visited_urls := [], job_detail_urls := [],
           error := some "boom", message := some "Ai analysis failed",
           success := false }, ⟨⟨[], []⟩, "", [], "", 0, [], []⟩⟩
      ∧ ∀ (tracker : URLTracker) (b u : String),
          tracker.should_skip u = false →
          ((fun _ => ({ analysis := { success := false, error := "boom" } } : StepOracle)) (0 : Nat)).analysis.success = false →
          (scrape_jobs {} (fun _ => { analysis := { success := false, error := "boom" } }) tracker b u).result =
            { jobs := [], visited_urls := [u], job_detail_urls := [],
              error := some "boom", message := some "Ai analysis failed",
              success := false }) :=
  ⟨rfl,
   analyzer_failure_stops_loop {}
     (fun _ => { analysis := { success := false, error := "boom" } }) 0
     ⟨⟨[], []⟩, "", [], "", 0, [], []⟩ rfl⟩

end ScraperTheorems

-- =========================================================================
-- C2: navigation-hop bound
-- =========================================================================

section ScraperTheorems2

open TrackedJobScraper

theorem scrapeLoop_nav_inv (cfg : JobScraperConfig) (oracle : Nat → StepOracle) :
    ∀ (n i : Nat) (s : EngineState),
      cfg.max_navigation + 1 - s.navCount ≤ n →
      s.navCount ≤ (scrapeLoop cfg oracle i s).state.navCount
      ∧ (scrapeLoop cfg oracle i s).state.navCount
          ≤ max s.navCount cfg.max_navigation
      ∧ (scrapeLoop cfg oracle i s).state.currentVisited.length + s.navCount
          ≤ s.currentVisited.length + max s.navCount cfg.max_navigation
      ∧ (scrapeLoop cfg oracle i s).result.visited_urls
          = (scrapeLoop cfg oracle i s).state.currentVisited := by
  intro n
  induction n with
  | zero =>
    intro i s hn
    rw [scrapeLoop]
    dsimp only
    split
    · exact ⟨le_rfl, by dsimp only; omega, by dsimp only; omega, rfl⟩
    · split
      · exact ⟨le_rfl, by dsimp only; omega, by dsimp only; omega, rfl⟩
      · split
        · exact ⟨le_rfl, by dsimp only; omega, by dsimp only; omega, rfl⟩
        · split
          · split
            · exact ⟨le_rfl, by dsimp only; omega, by dsimp only; omega, rfl⟩
            · omega
          · split
            · split
              · exact ⟨le_rfl, by dsimp only; omega, by dsimp only; omega, rfl⟩
              · split
                · exact ⟨le_rfl, by dsimp only; omega, by dsimp only; omega, rfl⟩
                · exact ⟨le_rfl, by dsimp only; omega, by dsimp only; omega, rfl⟩
            · exact ⟨le_rfl, by dsimp only; omega, by dsimp only; omega, rfl⟩
  | succ m ih =>
    intro i s hn
    have step : ∀ (j : Nat) (t : EngineState),
        t.navCount = s.navCount + 1 →
        t.currentVisited.length = s.currentVisited.length + 1 →
        s.navCount < cfg.max_navigation →
        (s.navCount ≤ (scrapeLoop cfg oracle j t).state.navCount
          ∧ (scrapeLoop cfg oracle j t).state.navCount
              ≤ max s.navCount cfg.max_navigation
          ∧ (scrapeLoop cfg oracle j t).state.currentVisited.length + s.navCount
              ≤ s.currentVisited.length + max s.navCount cfg.max_navigation
          ∧ (scrapeLoop cfg oracle j t).result.visited_urls
              = (scrapeLoop cfg oracle j t).state.currentVisited) := by
      intro j t h1 h2 hlt
      have h4 := ih j t (by omega)
      exact ⟨by omega, by omega, by omega, h4.2.2.2⟩
    rw [scrapeLoop]
    dsimp only
    split
    · exact ⟨le_rfl, by dsimp only; omega, by dsimp only; omega, rfl⟩
    · split
      · exact ⟨le_rfl, by dsimp only; omega, by dsimp only; omega, rfl⟩
      · split
        · exact ⟨le_rfl, by dsimp only; omega, by dsimp only; omega, rfl⟩
        · split
          · split
            · exact ⟨le_rfl, by dsimp only; omega, by dsimp only; omega, rfl⟩
            · split
              · split
                · exact ⟨le_rfl, by dsimp only; omega, by dsimp only; omega, rfl⟩
                · exact step (i + 1) _ rfl (by simp [navigate]) (by omega)
              · split
                · split
                  · exact step (i + 1) _ rfl (by simp) (by omega)
                  · exact ⟨by dsimp only; omega, by dsimp only; omega,
                      by dsimp only; omega, rfl⟩
                · exact ⟨le_rfl, by dsimp only; omega, by dsimp only; omega, rfl⟩
          · split
            · split
              · exact ⟨le_rfl, by dsimp only; omega, by dsimp only; omega, rfl⟩
              · split
                · exact ⟨le_rfl, by dsimp only; omega, by dsimp only; omega, rfl⟩
                · exact ⟨le_rfl, by dsimp only; omega, by dsimp only; omega, rfl⟩
            · exact ⟨le_rfl, by dsimp only; omega, by dsimp only; omega, rfl⟩

end ScraperTheorems2

section ScraperTheorems3

open TrackedJobScraper

/-- C2: under every classifier behaviour — in particular a hostile one
that always returns `next_action=navigate` with a fresh unvisited URL —
`nav_count` only increases across the loop and never exceeds
`max_navigation`; a full `scrape_jobs` run ends with
`nav_count ≤ max_navigation` and performs at most `max_navigation`
navigation hops, so its navigation log (`visited_urls`) has at most
`max_navigation + 1` entries (the seed plus the hops). -/
theorem navigation_hop_bound
    (cfg : JobScraperConfig) (oracle : Nat → StepOracle) (i : Nat)
    (s : EngineState) (tracker : URLTracker) (b u : String) :
    (s.navCount ≤ (scrapeLoop cfg oracle i s).state.navCount
      ∧ (scrapeLoop cfg oracle i s).state.navCount
          ≤ max s.navCount cfg.max_navigation)
    ∧ (scrape_jobs cfg oracle tracker b u).state.navCount ≤ cfg.max_navigation
    ∧ (scrape_jobs cfg oracle tracker b u).result.visited_urls.length
        ≤ cfg.max_navigation + 1 := by
  have h1 := scrapeLoop_nav_inv cfg oracle
    (cfg.max_navigation + 1 - s.navCount) i s le_rfl
  refine ⟨⟨h1.1, h1.2.1⟩, ?_⟩
  rw [scrape_jobs]
  split
  · constructor
    · dsimp only
      omega
    · simp
  · have h2 := scrapeLoop_nav_inv cfg oracle (cfg.max_navigation + 1) 0
      (navigate
        { tracker := tracker, browserUrl := b, currentVisited := [],
          url := u, navCount := 0, allJobs := [], gotos := [] } u)
      (by simp [navigate])
    simp only [navigate, List.nil_append] at h2 ⊢
    constructor
    · have h3 := h2.2.1
      omega
    · rw [h2.2.2.2]
      have h3 := h2.2.2.1
      simp only [List.length_append, List.nil_append, List.length_cons,
        List.length_nil] at h3
      omega

end ScraperTheorems3

-- =========================================================================
-- C10: navigation target equal to the loop's current URL
-- =========================================================================

section ScraperTheorems4

open TrackedJobScraper

/-- C10: in the navigate branch, when the resolved target URL is equal (as
a string) to the URL the loop currently treats as current, the engine
neither navigates to it nor consults the visited-set cycle guard (the
statement holds for every tracker, including ones for which the current
URL `should_skip`): it falls through to the link-text path — when the
payload carries no `link_text` it terminates with the jobs accumulated so
far and an unchanged state, and when it carries a `link_text` and a
clickable element is found it proceeds by clicking instead of
terminating. -/
theorem navigate_target_equals_current
    (cfg : JobScraperConfig) (oracle : Nat → StepOracle) (i : Nat)
    (s : EngineState)
    (hok : (oracle i).analysis.success = true)
    (hc1 : (oracle i).analysis.response.page_category ≠ "not_job_related")
    (hc2 : (oracle i).analysis.response.page_category ≠ "single_job_posting")
    (hnav : (oracle i).analysis.response.next_action = "navigate")
    (hcnt : s.navCount < cfg.max_navigation)
    (hurl : TextProcessor.normalize_url
        (oracle i).analysis.response.next_action_target.url
        ⟨(urlsplit s.browserUrl.data).netloc⟩ = s.url) :
    ((oracle i).analysis.response.next_action_target.link_text = "" →
      scrapeLoop cfg oracle i s = ⟨finishResult s.allJobs s.currentVisited, s⟩)
    ∧ ((oracle i).analysis.response.next_action_target.link_text ≠ "" →
      (oracle i).buttonFound = true →
      scrapeLoop cfg oracle i s =
        scrapeLoop cfg oracle (i + 1)
          { s with navCount := s.navCount + 1,
                   browserUrl := (oracle i).clickUrl,
                   tracker := s.tracker.mark_visited (oracle i).clickUrl,
                   currentVisited := s.currentVisited ++ [(oracle i).clickUrl] }) := by
  have hfalse : ¬((oracle i).analysis.success = false) := by simp [hok]
  have hcond : ¬(TextProcessor.normalize_url
      (oracle i).analysis.response.next_action_target.url
      (⟨(urlsplit s.browserUrl.data).netloc⟩ : String) ≠ ""
      ∧ TextProcessor.normalize_url
          (oracle i).analysis.response.next_action_target.url
          (⟨(urlsplit s.browserUrl.data).netloc⟩ : String) ≠ s.url) := by
    intro hand
    exact hand.2 hurl
  constructor
  · intro hlink
    rw [scrapeLoop]
    dsimp only
    rw [if_neg hfalse, if_neg hc1, if_neg hc2, if_pos hnav,
      dif_neg (by omega), if_neg hcond, if_neg (by simp [hlink])]
  · intro hlink hbtn
    rw [scrapeLoop]
    dsimp only
    rw [if_neg hfalse, if_neg hc1, if_neg hc2, if_pos hnav,
      dif_neg (by omega), if_neg hcond, if_pos hlink, if_pos hbtn]

/-- Witness for C10. -/
theorem navigate_target_equals_current_witness :
    let o : Nat → StepOracle := fun _ =>
      { analysis :=
          { success := true
            response :=
              { next_action := "navigate"
                next_action_target := { url := "https://a.com" } } } }
    let s : EngineState :=
      ⟨⟨["https://a.com"], []⟩, "https://a.com", ["https://a.com"],
        "https://a.com", 0, [], ["https://a.com"]⟩
    (o 0).analysis.success = true
    ∧ ((o 0).analysis.response.next_action_target.link_text = "" →
        scrapeLoop {} o 0 s = ⟨finishResult [] ["https://a.com"], s⟩) :=
  ⟨rfl,
   (navigate_target_equals_current {}
     (fun _ =>
       { analysis :=
           { success := true
             response :=
               { next_action := "navigate"
                 next_action_target := { url := "https://a.com" } } } }) 0
     ⟨⟨["https://a.com"], []⟩, "https://a.com", ["https://a.com"],
       "https://a.com", 0, [], ["https://a.com"]⟩
     rfl (by decide) (by decide) rfl (by decide) (by decide)).1⟩

end ScraperTheorems4

-- =========================================================================
-- C4: single_job_posting harvesting and finality
-- =========================================================================

section ScraperTheorems5

open TrackedJobScraper

theorem harvestSingle_cons (cu : String) (acc : URLTracker × List JobEntry)
    (it : JobItem) (rest : List JobItem) :
    harvestSingle cu acc (it :: rest) =
      harvestSingle cu
        ((if (if it.job_url = "" then cu else it.job_url) ≠ "" then
            acc.1.mark_job_scraped (if it.job_url = "" then cu else it.job_url)
          else acc.1),
         acc.2 ++ [{ title := it.title,
                     url := if it.job_url = "" then cu else it.job_url }]) rest := rfl

theorem harvestSingle_snd (cu : String) (items : List JobItem) :
    ∀ acc : URLTracker × List JobEntry,
      (harvestSingle cu acc items).2 =
        acc.2 ++ items.map (fun it =>
          { title := it.title,
            url := if it.job_url = "" then cu else it.job_url : JobEntry }) := by
  induction items with
  | nil => intro acc; simp [harvestSingle]
  | cons it rest ih =>
    intro acc
    rw [harvestSingle_cons, ih]
    simp

theorem harvestSingle_scraped_mono (cu : String) (items : List JobItem) :
    ∀ (acc : URLTracker × List JobEntry) (x : String),
      x ∈ acc.1.scraped_jobs → x ∈ (harvestSingle cu acc items).1.scraped_jobs := by
  induction items with
  | nil => intro acc x hx; simpa [harvestSingle] using hx
  | cons it rest ih =>
    intro acc x hx
    rw [harvestSingle_cons]
    apply ih
    dsimp only
    repeat' split
    all_goals first
      | exact List.mem_cons_of_mem _ hx
      | exact hx

theorem harvestSingle_marks (cu : String) (items : List JobItem) :
    ∀ (acc : URLTracker × List JobEntry), ∀ it ∈ items,
      (if it.job_url = "" then cu else it.job_url) ≠ "" →
      URLTracker.normalize_url_s (if it.job_url = "" then cu else it.job_url)
        ∈ (harvestSingle cu acc items).1.scraped_jobs := by
  induction items with
  | nil => intro acc it hit; simp at hit
  | cons it0 rest ih =>
    intro acc it hit hne
    rcases List.mem_cons.mp hit with hit | hit
    · subst hit
      rw [harvestSingle_cons]
      apply harvestSingle_scraped_mono
      dsimp only
      rw [if_pos hne]
      exact List.mem_cons_self _ _
    · rw [harvestSingle_cons]
      exact ih _ it hit hne

/-- C4 (amended): whenever the classifier returns
`page_category = single_job_posting`, the loop harvests every entry of
`jobs_listed_on_page` — defaulting a missing or empty `job_url` to the
*loop's current `url` variable* (the seed or the last URL navigated to via
`page.goto`; a link-text click navigation does not update that variable, so
it can differ from the browser page's current URL) — marks every harvested
non-empty job URL as scraped, and returns immediately with `success = true`
and without any further navigation, even when `next_action` says
`navigate`; in particular a payload with one job and no `job_url` yields
exactly one new job whose URL is the loop's current `url`. -/
theorem single_job_posting_final
    (cfg : JobScraperConfig) (oracle : Nat → StepOracle) (i : Nat)
    (s : EngineState)
    (hok : (oracle i).analysis.success = true)
    (hcat : (oracle i).analysis.response.page_category = "single_job_posting") :
    (scrapeLoop cfg oracle i s).result.jobs =
      s.allJobs ++ (oracle i).analysis.response.jobs_listed_on_page.map
        (fun it => { title := it.title,
                     url := if it.job_url = "" then s.url else it.job_url })
    ∧ (scrapeLoop cfg oracle i s).result.success = true
    ∧ (scrapeLoop cfg oracle i s).state.currentVisited = s.currentVisited
    ∧ (scrapeLoop cfg oracle i s).state.gotos = s.gotos
    ∧ (∀ it ∈ (oracle i).analysis.response.jobs_listed_on_page,
        (if it.job_url = "" then s.url else it.job_url) ≠ "" →
        URLTracker.normalize_url_s (if it.job_url = "" then s.url else it.job_url)
          ∈ (scrapeLoop cfg oracle i s).state.tracker.scraped_jobs) := by
  have hfalse : ¬((oracle i).analysis.success = false) := by simp [hok]
  have hne1 : ¬((oracle i).analysis.response.page_category = "not_job_related") := by
    rw [hcat]; decide
  rw [scrapeLoop]
  dsimp only
  rw [if_neg hfalse, if_neg hne1, if_pos hcat]
  refine ⟨?_, rfl, rfl, rfl, ?_⟩
  · exact harvestSingle_snd s.url (oracle i).analysis.response.jobs_listed_on_page
      (s.tracker, s.allJobs)
  · intro it hit hne
    exact harvestSingle_marks s.url _ (s.tracker, s.allJobs) it hit hne

/-- Witness for the amended C4. -/
theorem single_job_posting_final_witness :
    let o : Nat → StepOracle := fun _ =>
      { analysis :=
          { success := true
            response :=
              { page_category := "single_job_posting"
                jobs_listed_on_page := [{ title := "T" }] } } }
    let s : EngineState :=
      ⟨⟨[], []⟩, "https://a.com", ["https://a.com"], "https://a.com", 0, [],
        ["https://a.com"]⟩
    (o 0).analysis.success = true
    ∧ (scrapeLoop {} o 0 s).result.jobs =
        [] ++ [({ title := "T", job_url := "" } : JobItem)].map
          (fun it => { title := it.title,
                       url := if it.job_url = "" then "https://a.com" else it.job_url }) :=
  ⟨rfl,
   (single_job_posting_final {}
     (fun _ =>
       { analysis :=
           { success := true
             response :=
               { page_category := "single_job_posting"
                 jobs_listed_on_page := [{ title := "T" }] } } }) 0
     ⟨⟨[], []⟩, "https://a.com", ["https://a.com"], "https://a.com", 0, [],
       ["https://a.com"]⟩ rfl rfl).1⟩

end ScraperTheorems5

section ScraperTheorems6

open TrackedJobScraper

/-- C4, counterexample to the claim as stated.  After a link-text click
navigation the loop's `url` variable is not updated, so on a subsequent
`single_job_posting` page with no `job_url` the harvested job URL is the
stale pre-click URL, not the page's current URL: starting from seed
`https://a.com`, clicking through to `https://b.com/j` and then
classifying that page as a single job posting with an omitted `job_url`
returns a job with URL `https://a.com` while the browser's current page is
`https://b.com/j`. -/
theorem c4_counterexample :
    let o : Nat → StepOracle := fun n =>
      if n = 0 then
        { analysis :=
            { success := true
              response :=
                { next_action := "navigate"
                  next_action_target := { link_text := "Careers" } } }
          buttonFound := true
          clickUrl := "https://b.com/j" }
      else
        { analysis :=
            { success := true
              response :=
                { page_category := "single_job_posting"
                  jobs_listed_on_page := [{ title := "T" }] } } }
    ((scrape_jobs {} o ⟨[], []⟩ "" "https://a.com").result.jobs.map
        (fun j => j.url) = ["https://a.com"])
    ∧ (scrape_jobs {} o ⟨[], []⟩ "" "https://a.com").state.browserUrl
        = "https://b.com/j"
    ∧ ("https://a.com" : String) ≠ "https://b.com/j" := by
  intro o
  refine ⟨?_, ?_, by decide⟩ <;>
    simp +decide [scrape_jobs, scrapeLoop, navigate, harvestSingle,
      finishResult, URLTracker.should_skip, URLTracker.mark_visited,
      URLTracker.mark_job_scraped, o]

end ScraperTheorems6

-- =========================================================================
-- C1: cycle guard — no URL is goto-navigated twice, navigations are marked
-- =========================================================================

section ScraperTheorems7

open TrackedJobScraper

theorem harvestListed_visited (items : List JobItem) :
    ∀ acc : URLTracker × List JobEntry,
      (harvestListed acc items).1.visited = acc.1.visited := by
  induction items with
  | nil => intro acc; rfl
  | cons it rest ih =>
    intro acc
    have step : harvestListed acc (it :: rest) =
        harvestListed
          ((if it.job_url ≠ "" then acc.1.mark_job_scraped it.job_url else acc.1),
           acc.2 ++ [{ title := it.title, url := it.job_url }]) rest := rfl
    rw [step, ih]
    dsimp only
    split <;> rfl

theorem harvestChunks_visited (chunks : List AnalyzerResult) :
    ∀ acc : URLTracker × List JobEntry,
      (harvestChunks acc chunks).1.visited = acc.1.visited := by
  induction chunks with
  | nil => intro acc; rfl
  | cons a rest ih =>
    intro acc
    have step : harvestChunks acc (a :: rest) =
        harvestChunks
          (if a.success then harvestListed acc a.response.jobs_listed_on_page
           else acc) rest := rfl
    rw [step, ih]
    split
    · exact harvestListed_visited _ _
    · rfl

theorem harvestSingle_visited (cu : String) (items : List JobItem) :
    ∀ acc : URLTracker × List JobEntry,
      (harvestSingle cu acc items).1.visited = acc.1.visited := by
  induction items with
  | nil => intro acc; rfl
  | cons it rest ih =>
    intro acc
    rw [harvestSingle_cons, ih]
    dsimp only
    repeat' split
    all_goals rfl

theorem scrapeLoop_tracking_inv (cfg : JobScraperConfig)
    (oracle : Nat → StepOracle) :
    ∀ (n i : Nat) (s : EngineState),
      cfg.max_navigation + 1 - s.navCount ≤ n →
      (∀ g ∈ s.gotos, URLTracker.normalize_url_s g ∈ s.tracker.visited) →
      (s.gotos.map URLTracker.normalize_url_s).Nodup →
      (∀ v ∈ s.currentVisited, URLTracker.normalize_url_s v ∈ s.tracker.visited) →
      (∀ g ∈ (scrapeLoop cfg oracle i s).state.gotos,
          URLTracker.normalize_url_s g
            ∈ (scrapeLoop cfg oracle i s).state.tracker.visited)
      ∧ ((scrapeLoop cfg oracle i s).state.gotos.map
          URLTracker.normalize_url_s).Nodup
      ∧ (∀ v ∈ (scrapeLoop cfg oracle i s).state.currentVisited,
          URLTracker.normalize_url_s v
            ∈ (scrapeLoop cfg oracle i s).state.tracker.visited) := by
  intro n
  induction n with
  | zero =>
    intro i s hn h1 h2 h3
    rw [scrapeLoop]
    dsimp only
    by_cases hfail : (oracle i).analysis.success = false
    · rw [if_pos hfail]
      exact ⟨h1, h2, h3⟩
    · rw [if_neg hfail]
      by_cases hcat1 :
          (oracle i).analysis.response.page_category = "not_job_related"
      · rw [if_pos hcat1]
        exact ⟨h1, h2, h3⟩
      · rw [if_neg hcat1]
        by_cases hcat2 :
            (oracle i).analysis.response.page_category = "single_job_posting"
        · rw [if_pos hcat2]
          refine ⟨?_, h2, ?_⟩ <;>
            · intro g hg
              dsimp only at hg ⊢
              rw [harvestSingle_visited]
              first
                | exact h1 g hg
                | exact h3 g hg
        · rw [if_neg hcat2]
          by_cases hnav : (oracle i).analysis.response.next_action = "navigate"
          · rw [if_pos hnav]
            rw [dif_pos (show cfg.max_navigation ≤ s.navCount by omega)]
            exact ⟨h1, h2, h3⟩
          · rw [if_neg hnav]
            by_cases hjl :
                (oracle i).analysis.response.page_category = "jobs_listed"
            · rw [if_pos hjl]
              by_cases hp1 :
                  (!(oracle i).analysis.response.pagination.is_paginated_page
                    && (oracle i).analysis.response.pagination.has_more_pages)
                    = true
              · rw [if_pos hp1]
                refine ⟨?_, h2, ?_⟩ <;>
                  · intro g hg
                    dsimp only at hg ⊢
                    rw [harvestChunks_visited, harvestListed_visited]
                    first
                      | exact h1 g hg
                      | exact h3 g hg
              · rw [if_neg hp1]
                by_cases hp2 :
                    (oracle i).analysis.response.pagination.is_paginated_page
                      = true
                · rw [if_pos hp2]
                  refine ⟨?_, h2, ?_⟩ <;>
                    · intro g hg
                      dsimp only at hg ⊢
                      rw [harvestChunks_visited, harvestListed_visited]
                      first
                        | exact h1 g hg
                        | exact h3 g hg
                · rw [if_neg hp2]
                  refine ⟨?_, h2, ?_⟩ <;>
                    · intro g hg
                      dsimp only at hg ⊢
                      rw [harvestListed_visited]
                      first
                        | exact h1 g hg
                        | exact h3 g hg
            · rw [if_neg hjl]
              exact ⟨h1, h2, h3⟩
  | succ m ih =>
    intro i s hn h1 h2 h3
    rw [scrapeLoop]
    dsimp only
    by_cases hfail : (oracle i).analysis.success = false
    · rw [if_pos hfail]
      exact ⟨h1, h2, h3⟩
    · rw [if_neg hfail]
      by_cases hcat1 :
          (oracle i).analysis.response.page_category = "not_job_related"
      · rw [if_pos hcat1]
        exact ⟨h1, h2, h3⟩
      · rw [if_neg hcat1]
        by_cases hcat2 :
            (oracle i).analysis.response.page_category = "single_job_posting"
        · rw [if_pos hcat2]
          refine ⟨?_, h2, ?_⟩ <;>
            · intro g hg
              dsimp only at hg ⊢
              rw [harvestSingle_visited]
              first
                | exact h1 g hg
                | exact h3 g hg
        · rw [if_neg hcat2]
          by_cases hnav : (oracle i).analysis.response.next_action = "navigate"
          · rw [if_pos hnav]
            by_cases hle : cfg.max_navigation ≤ s.navCount
            · rw [dif_pos hle]
              exact ⟨h1, h2, h3⟩
            · rw [dif_neg hle]
              by_cases hcond : (TextProcessor.normalize_url
                    (oracle i).analysis.response.next_action_target.url
                    (⟨(urlsplit s.browserUrl.data).netloc⟩ : String) ≠ ""
                  ∧ TextProcessor.normalize_url
                      (oracle i).analysis.response.next_action_target.url
                      (⟨(urlsplit s.browserUrl.data).netloc⟩ : String) ≠ s.url)
              · rw [if_pos hcond]
                by_cases hskip : s.tracker.should_skip
                    (TextProcessor.normalize_url
                      (oracle i).analysis.response.next_action_target.url
                      (⟨(urlsplit s.browserUrl.data).netloc⟩ : String)) = true
                · rw [if_pos hskip]
                  exact ⟨h1, h2, h3⟩
                · rw [if_neg hskip]
                  have hnotmem : URLTracker.normalize_url_s
                      (TextProcessor.normalize_url
                        (oracle i).analysis.response.next_action_target.url
                        (⟨(urlsplit s.browserUrl.data).netloc⟩ : String))
                      ∉ s.tracker.visited := by
                    intro hmem
                    apply hskip
                    simp only [URLTracker.should_skip, Bool.or_eq_true]
                    exact Or.inl (List.elem_eq_true_of_mem hmem)
                  apply ih
                  · simp only [navigate]
                    omega
                  · intro g hg
                    simp only [navigate, List.mem_append] at hg
                    dsimp only [navigate, URLTracker.mark_visited]
                    rcases hg with hg | hg
                    · exact List.mem_cons_of_mem _ (h1 g hg)
                    · simp only [List.mem_singleton] at hg
                      subst hg
                      exact List.mem_cons_self _ _
                  · simp only [navigate]
                    rw [List.map_append, List.nodup_append]
                    refine ⟨h2, List.nodup_singleton _, ?_⟩
                    intro a ha
                    simp only [List.map_cons, List.map_nil, List.mem_singleton]
                    intro haeq
                    subst haeq
                    rcases List.mem_map.mp ha with ⟨g, hg, hgeq⟩
                    exact hnotmem (hgeq ▸ h1 g hg)
                  · intro v hv
                    simp only [navigate, List.mem_append] at hv
                    dsimp only [navigate, URLTracker.mark_visited]
                    rcases hv with hv | hv
                    · exact List.mem_cons_of_mem _ (h3 v hv)
                    · simp only [List.mem_singleton] at hv
                      subst hv
                      exact List.mem_cons_self _ _
              · rw [if_neg hcond]
                by_cases hlink :
                    (oracle i).analysis.response.next_action_target.link_text ≠ ""
                · rw [if_pos hlink]
                  by_cases hbtn : (oracle i).buttonFound = true
                  · rw [if_pos hbtn]
                    apply ih
                    · dsimp only
                      omega
                    · intro g hg
                      dsimp only [URLTracker.mark_visited] at hg ⊢
                      exact List.mem_cons_of_mem _ (h1 g hg)
                    · exact h2
                    · intro v hv
                      simp only [List.mem_append] at hv
                      dsimp only [URLTracker.mark_visited]
                      rcases hv with hv | hv
                      · exact List.mem_cons_of_mem _ (h3 v hv)
                      · simp only [List.mem_singleton] at hv
                        subst hv
                        exact List.mem_cons_self _ _
                  · rw [if_neg hbtn]
                    exact ⟨h1, h2, h3⟩
                · rw [if_neg hlink]
                  exact ⟨h1, h2, h3⟩
          · rw [if_neg hnav]
            by_cases hjl :
                (oracle i).analysis.response.page_category = "jobs_listed"
            · rw [if_pos hjl]
              by_cases hp1 :
                  (!(oracle i).analysis.response.pagination.is_paginated_page
                    && (oracle i).analysis.response.pagination.has_more_pages)
                    = true
              · rw [if_pos hp1]
                refine ⟨?_, h2, ?_⟩ <;>
                  · intro g hg
                    dsimp only at hg ⊢
                    rw [harvestChunks_visited, harvestListed_visited]
                    first
                      | exact h1 g hg
                      | exact h3 g hg
              · rw [if_neg hp1]
                by_cases hp2 :
                    (oracle i).analysis.response.pagination.is_paginated_page
                      = true
                · rw [if_pos hp2]
                  refine ⟨?_, h2, ?_⟩ <;>
                    · intro g hg
                      dsimp only at hg ⊢
                      rw [harvestChunks_visited, harvestListed_visited]
                      first
                        | exact h1 g hg
                        | exact h3 g hg
                · rw [if_neg hp2]
                  refine ⟨?_, h2, ?_⟩ <;>
                    · intro g hg
                      dsimp only at hg ⊢
                      rw [harvestListed_visited]
                      first
                        | exact h1 g hg
                        | exact h3 g hg
            · rw [if_neg hjl]
              exact ⟨h1, h2, h3⟩

end ScraperTheorems7

section ScraperTheorems8

open TrackedJobScraper

/-- C1: within one `scrape_jobs` traversal, for every classifier
behaviour: (i) the normalized forms of the URLs passed to `page.goto` are
pairwise distinct — the same normalized URL is never goto-navigated twice,
because every goto is guarded by `should_skip` and immediately marked
visited; (ii) every completed navigation (both gotos and link-text click
landings, i.e. every entry of the run's visited log) ends up marked
visited in the `URLTracker`; and (iii) whenever the resolved
`next_action_target` URL is one the tracker says to skip, the loop
terminates on that very iteration with the jobs accumulated so far and an
unchanged state, rather than navigating again. -/
theorem cycle_guard
    (cfg : JobScraperConfig) (oracle : Nat → StepOracle)
    (tracker : URLTracker) (b u : String) (i : Nat) (s : EngineState)
    (hok : (oracle i).analysis.success = true)
    (hc1 : (oracle i).analysis.response.page_category ≠ "not_job_related")
    (hc2 : (oracle i).analysis.response.page_category ≠ "single_job_posting")
    (hnav : (oracle i).analysis.response.next_action = "navigate")
    (hcnt : s.navCount < cfg.max_navigation)
    (hcond : TextProcessor.normalize_url
        (oracle i).analysis.response.next_action_target.url
        (⟨(urlsplit s.browserUrl.data).netloc⟩ : String) ≠ ""
      ∧ TextProcessor.normalize_url
          (oracle i).analysis.response.next_action_target.url
          (⟨(urlsplit s.browserUrl.data).netloc⟩ : String) ≠ s.url)
    (hskip : s.tracker.should_skip
        (TextProcessor.normalize_url
          (oracle i).analysis.response.next_action_target.url
          (⟨(urlsplit s.browserUrl.data).netloc⟩ : String)) = true) :
    ((scrape_jobs cfg oracle tracker b u).state.gotos.map
        URLTracker.normalize_url_s).Nodup
    ∧ (∀ v ∈ (scrape_jobs cfg oracle tracker b u).state.currentVisited,
        URLTracker.normalize_url_s v
          ∈ (scrape_jobs cfg oracle tracker b u).state.tracker.visited)
    ∧ scrapeLoop cfg oracle i s =
        ⟨finishResult s.allJobs s.currentVisited, s⟩ := by
  have hfalse : ¬((oracle i).analysis.success = false) := by simp [hok]
  have hrun :
      ((scrape_jobs cfg oracle tracker b u).state.gotos.map
          URLTracker.normalize_url_s).Nodup
      ∧ (∀ v ∈ (scrape_jobs cfg oracle tracker b u).state.currentVisited,
          URLTracker.normalize_url_s v
            ∈ (scrape_jobs cfg oracle tracker b u).state.tracker.visited) := by
    rw [scrape_jobs]
    split
    · constructor
      · simp
      · intro v hv
        simp at hv
    · have hinv := scrapeLoop_tracking_inv cfg oracle
        (cfg.max_navigation + 1) 0
        (navigate
          { tracker := tracker, browserUrl := b, currentVisited := [],
            url := u, navCount := 0, allJobs := [], gotos := [] } u)
        (by simp [navigate])
        (by
          intro g hg
          simp only [navigate, List.nil_append, List.mem_singleton] at hg
          subst hg
          exact List.mem_cons_self _ _)
        (by simp [navigate])
        (by
          intro v hv
          simp only [navigate, List.nil_append, List.mem_singleton] at hv
          subst hv
          exact List.mem_cons_self _ _)
      exact ⟨hinv.2.1, hinv.2.2⟩
  refine ⟨hrun.1, hrun.2, ?_⟩
  rw [scrapeLoop]
  dsimp only
  rw [if_neg hfalse, if_neg hc1, if_neg hc2, if_pos hnav,
    dif_neg (by omega), if_pos hcond, if_pos hskip]

/-- Witness for C1: a state whose tracker has already visited the
(normalized) navigation target `https://b.com`; the loop terminates on
that iteration. -/
theorem cycle_guard_witness :
    let o : Nat → StepOracle := fun _ =>
      { analysis :=
          { success := true
            response :=
              { next_action := "navigate"
                next_action_target := { url := "https://b.com" } } } }
    let s : EngineState :=
      ⟨⟨[URLTracker.normalize_url_s "https://b.com"], []⟩, "https://a.com",
        ["https://a.com"], "https://a.com", 0, [], ["https://a.com"]⟩
    (0 : Nat) < (2 : Nat)
    ∧ (((scrape_jobs {} o ⟨[], []⟩ "" "https://a.com").state.gotos.map
          URLTracker.normalize_url_s).Nodup
      ∧ (∀ v ∈ (scrape_jobs {} o ⟨[], []⟩ "" "https://a.com").state.currentVisited,
          URLTracker.normalize_url_s v
            ∈ (scrape_jobs {} o ⟨[], []⟩ "" "https://a.com").state.tracker.visited)
      ∧ scrapeLoop {} o 0 s = ⟨finishResult [] ["https://a.com"], s⟩) :=
  ⟨by decide,
   cycle_guard {}
     (fun _ =>
       { analysis :=
           { success := true
             response :=
               { next_action := "navigate"
                 next_action_target := { url := "https://b.com" } } } })
     ⟨[], []⟩ "" "https://a.com" 0
     ⟨⟨[URLTracker.normalize_url_s "https://b.com"], []⟩, "https://a.com",
       ["https://a.com"], "https://a.com", 0, [], ["https://a.com"]⟩
     rfl (by decide) (by decide) rfl (by decide) (by decide) (by decide)⟩

end ScraperTheorems8

-- =========================================================================
-- C5: scrape_job_details lets an exception escape (code bug)
-- =========================================================================

/-- C5 (code bug): `scrape_job_details` is meant never to let an exception
escape, but the assignment `job_doc["raw_text"] = text_extracted.structured_text`
sits *outside* the `try`/`except`.  When navigation to the first processed
job raises (here `net::ERR_CONNECTION_REFUSED`), the `except` handler
stores an error marker into `job.details`, control reaches the document
build, and the read of the never-assigned local `text_extracted` raises
`UnboundLocalError`, aborting the whole batch — contradicting the claimed
"one failing job never aborts the rest".  The second conjunct shows the
same call with a non-raising navigation completes normally. -/
theorem scrape_job_details_unbound_local :
    TrackedJobScraper.scrape_job_details "a.com"
      [{ title := "Engineer", url := "https://a.com/x" }]
      Option.none false
      (fun _ => { navOutcome := Except.error "net::ERR_CONNECTION_REFUSED" })
      ⟨⟨[], []⟩, "https://a.com", Option.none⟩
      = Except.error
          "UnboundLocalError: local variable text_extracted referenced before assignment"
    ∧ (TrackedJobScraper.scrape_job_details "a.com"
        [{ title := "Engineer", url := "https://a.com/x" }]
        Option.none false
        (fun _ =>
          { extractOutcome := Except.ok "page text"
            analyzeOutcome := Except.ok
              { success := true, response := [("title", PyVal.s "Engineer")] } })
        ⟨⟨[], []⟩, "https://a.com", Option.none⟩).isOk = true := by
  constructor
  · rfl
  · rfl

-- =========================================================================
-- Character-level lemmas about Python lowercasing
-- =========================================================================

theorem charOfNatAux_toNat (n : Nat) (h : n.isValidChar) :
    (Char.ofNatAux n h).toNat = n := rfl

theorem char_isUpper_iff (c : Char) :
    c.isUpper = true ↔ 65 ≤ c.toNat ∧ c.toNat ≤ 90 := by
  unfold Char.isUpper
  simp only [Bool.and_eq_true, decide_eq_true_eq]
  constructor
  · rintro ⟨h1, h2⟩; exact ⟨h1, h2⟩
  · rintro ⟨h1, h2⟩; exact ⟨h1, h2⟩

theorem char_isLower_iff (c : Char) :
    c.isLower = true ↔ 97 ≤ c.toNat ∧ c.toNat ≤ 122 := by
  unfold Char.isLower
  simp only [Bool.and_eq_true, decide_eq_true_eq]
  constructor
  · rintro ⟨h1, h2⟩; exact ⟨h1, h2⟩
  · rintro ⟨h1, h2⟩; exact ⟨h1, h2⟩

theorem char_isAlpha_iff (c : Char) :
    c.isAlpha = true ↔
      (65 ≤ c.toNat ∧ c.toNat ≤ 90) ∨ (97 ≤ c.toNat ∧ c.toNat ≤ 122) := by
  unfold Char.isAlpha
  rw [Bool.or_eq_true, char_isUpper_iff, char_isLower_iff]

theorem char_isDigit_iff (c : Char) :
    c.isDigit = true ↔ 48 ≤ c.toNat ∧ c.toNat ≤ 57 := by
  unfold Char.isDigit
  simp only [Bool.and_eq_true, decide_eq_true_eq]
  constructor
  · rintro ⟨h1, h2⟩; exact ⟨h1, h2⟩
  · rintro ⟨h1, h2⟩; exact ⟨h1, h2⟩

theorem toLower_toNat_of_upper (c : Char) (h : 65 ≤ c.toNat ∧ c.toNat ≤ 90) :
    c.toLower.toNat = c.toNat + 32 := by
  unfold Char.toLower
  rw [if_pos ⟨h.1, h.2⟩]
  show (Char.ofNat (c.toNat + 32)).toNat = _
  unfold Char.ofNat
  rw [dif_pos (Or.inl (by omega : c.toNat + 32 < 0xd800))]
  rfl

theorem toLower_eq_self (c : Char) (h : ¬(65 ≤ c.toNat ∧ c.toNat ≤ 90)) :
    c.toLower = c := by
  unfold Char.toLower
  rw [if_neg h]

theorem toLower_idem (c : Char) : c.toLower.toLower = c.toLower := by
  by_cases h : 65 ≤ c.toNat ∧ c.toNat ≤ 90
  · have h1 := toLower_toNat_of_upper c h
    apply toLower_eq_self
    omega
  · rw [toLower_eq_self c h, toLower_eq_self c h]

theorem toLower_isAlpha (c : Char) (h : c.isAlpha = true) :
    c.toLower.isAlpha = true := by
  rcases (char_isAlpha_iff c).mp h with h1 | h1
  · have h2 := toLower_toNat_of_upper c h1
    rw [char_isAlpha_iff]
    right
    omega
  · rw [toLower_eq_self c (by omega)]
    exact h

theorem toLower_isSchemeRest (c : Char) (h : isSchemeRestChar c = true) :
    isSchemeRestChar c.toLower = true := by
  unfold isSchemeRestChar at h ⊢
  simp only [Bool.or_eq_true, decide_eq_true_eq] at h ⊢
  rcases h with ((((h | h) | h) | h) | h)
  · exact Or.inl (Or.inl (Or.inl (Or.inl (toLower_isAlpha c h))))
  · have h1 := (char_isDigit_iff c).mp h
    rw [toLower_eq_self c (by omega)]
    exact Or.inl (Or.inl (Or.inl (Or.inr h)))
  · subst h
    decide
  · subst h
    decide
  · subst h
    decide

theorem alpha_gt_space (c : Char) (h : c.isAlpha = true) : 0x20 < c.toNat := by
  rw [char_isAlpha_iff] at h
  omega

theorem mem_lowerStr {x : Char} {l : List Char} (h : x ∈ lowerStr l) :
    ∃ y ∈ l, x = y.toLower := by
  unfold lowerStr at h
  rcases List.mem_map.mp h with ⟨y, hy, hxy⟩
  exact ⟨y, hy, hxy.symm⟩

theorem lowerStr_idem (l : List Char) : lowerStr (lowerStr l) = lowerStr l := by
  unfold lowerStr
  rw [List.map_map]
  apply List.map_congr_left
  intro a _
  exact toLower_idem a

-- =========================================================================
-- List lemmas: first-index searches and right stripping
-- =========================================================================

theorem findIdxP_cons (p : Char → Bool) (a : Char) (t : List Char) :
    (a :: t).findIdx? p = if p a then some 0 else (t.findIdx? p).map (· + 1) := by
  rw [List.findIdx?_cons, List.findIdx?_succ]

theorem findIdxP_eq_none_of {p : Char → Bool} {l : List Char}
    (h : ∀ x ∈ l, p x = false) : l.findIdx? p = none := by
  induction l with
  | nil => rfl
  | cons a t ih =>
    rw [findIdxP_cons, h a (List.mem_cons_self _ _),
      ih (fun x hx => h x (List.mem_cons_of_mem _ hx))]
    rfl

theorem of_findIdxP_eq_none {p : Char → Bool} {l : List Char}
    (h : l.findIdx? p = none) : ∀ x ∈ l, p x = false := by
  induction l with
  | nil => intro x hx; simp at hx
  | cons a t ih =>
    rw [findIdxP_cons] at h
    intro x hx
    by_cases hpa : p a = true
    · rw [hpa] at h
      simp at h
    · rw [Bool.eq_false_iff.mpr hpa] at h
      simp only [if_neg, Bool.false_eq_true, if_false, Option.map_eq_none'] at h
      rcases List.mem_cons.mp hx with hx | hx
      · subst hx
        exact Bool.eq_false_iff.mpr hpa
      · exact ih h x hx

theorem mem_take_findIdxP {p : Char → Bool} {l : List Char} {i : Nat}
    (h : l.findIdx? p = some i) : ∀ x ∈ l.take i, p x = false := by
  induction l generalizing i with
  | nil => intro x hx; simp at hx
  | cons a t ih =>
    rw [findIdxP_cons] at h
    intro x hx
    by_cases hpa : p a = true
    · rw [hpa] at h
      simp only [if_pos, Option.some.injEq] at h
      subst h
      simp at hx
    · rw [Bool.eq_false_iff.mpr hpa] at h
      simp only [if_neg, Bool.false_eq_true, if_false] at h
      cases hoi : t.findIdx? p with
      | none => rw [hoi] at h; simp at h
      | some j =>
        rw [hoi] at h
        simp only [Option.map_some', Option.some.injEq] at h
        subst h
        rw [List.take_succ_cons] at hx
        rcases List.mem_cons.mp hx with hx | hx
        · subst hx
          exact Bool.eq_false_iff.mpr hpa
        · exact ih hoi x hx

theorem findIdxP_lt_length {p : Char → Bool} {l : List Char} {i : Nat}
    (h : l.findIdx? p = some i) : i < l.length := by
  induction l generalizing i with
  | nil => simp [List.findIdx?] at h
  | cons a t ih =>
    rw [findIdxP_cons] at h
    by_cases hpa : p a = true
    · rw [hpa] at h
      simp only [if_pos, Option.some.injEq] at h
      subst h
      simp
    · rw [Bool.eq_false_iff.mpr hpa] at h
      simp only [if_neg, Bool.false_eq_true, if_false] at h
      cases hoi : t.findIdx? p with
      | none => rw [hoi] at h; simp at h
      | some j =>
        rw [hoi] at h
        simp only [Option.map_some', Option.some.injEq] at h
        subst h
        have := ih hoi
        simp only [List.length_cons]
        omega

theorem findIdxP_append_left {p : Char → Bool} {l : List Char} {i : Nat}
    (h : l.findIdx? p = some i) (t : List Char) :
    (l ++ t).findIdx? p = some i := by
  induction l generalizing i with
  | nil => simp [List.findIdx?] at h
  | cons a r ih =>
    rw [List.cons_append, findIdxP_cons]
    rw [findIdxP_cons] at h
    by_cases hpa : p a = true
    · rw [hpa] at h ⊢
      simpa using h
    · rw [Bool.eq_false_iff.mpr hpa] at h ⊢
      simp only [if_neg, Bool.false_eq_true, if_false] at h ⊢
      cases hoi : r.findIdx? p with
      | none => rw [hoi] at h; simp at h
      | some j =>
        rw [hoi] at h
        simp only [Option.map_some', Option.some.injEq] at h
        subst h
        rw [ih hoi]
        rfl

theorem findIdxP_append_sep {p : Char → Bool} {l : List Char} {a : Char}
    (hl : ∀ x ∈ l, p x = false) (ha : p a = true) (r : List Char) :
    (l ++ a :: r).findIdx? p = some l.length := by
  induction l with
  | nil =>
    rw [List.nil_append, findIdxP_cons, ha]
    rfl
  | cons b t ih =>
    rw [List.cons_append, findIdxP_cons,
      hl b (List.mem_cons_self _ _),
      ih (fun x hx => hl x (List.mem_cons_of_mem _ hx))]
    rfl

theorem findIdx_append_all_false {p : Char → Bool} {l : List Char}
    (hl : ∀ x ∈ l, p x = false) (r : List Char) :
    (l ++ r).findIdx p = l.length + r.findIdx p := by
  induction l with
  | nil => simp
  | cons b t ih =>
    rw [List.cons_append, List.findIdx_cons,
      hl b (List.mem_cons_self _ _),
      ih (fun x hx => hl x (List.mem_cons_of_mem _ hx))]
    simp only [cond_false, List.length_cons]
    omega

theorem mem_take_findIdx {p : Char → Bool} (l : List Char) :
    ∀ x ∈ l.take (l.findIdx p), p x = false := by
  induction l with
  | nil => intro x hx; simp at hx
  | cons a t ih =>
    rw [List.findIdx_cons]
    intro x hx
    by_cases hpa : p a = true
    · rw [hpa] at hx
      simp at hx
    · rw [Bool.eq_false_iff.mpr hpa] at hx
      simp only [cond_false] at hx
      rw [List.take_succ_cons] at hx
      rcases List.mem_cons.mp hx with hx | hx
      · subst hx
        exact Bool.eq_false_iff.mpr hpa
      · exact ih x hx

theorem head_drop_findIdx {p : Char → Bool} (l : List Char) :
    ∀ x ∈ (l.drop (l.findIdx p)).head?, p x = true := by
  induction l with
  | nil => intro x hx; simp at hx
  | cons a t ih =>
    rw [List.findIdx_cons]
    intro x hx
    by_cases hpa : p a = true
    · rw [hpa] at hx
      simp only [cond_true, List.drop_zero, List.head?_cons,
        Option.mem_def, Option.some.injEq] at hx
      subst hx
      exact hpa
    · rw [Bool.eq_false_iff.mpr hpa] at hx
      simp only [cond_false, List.drop_succ_cons] at hx
      exact ih x hx

theorem head_dropWhile {p : Char → Bool} (l : List Char) :
    ∀ x ∈ (l.dropWhile p).head?, p x = false := by
  induction l with
  | nil => intro x hx; simp at hx
  | cons a t ih =>
    rw [List.dropWhile_cons]
    intro x hx
    by_cases hpa : p a = true
    · rw [if_pos hpa] at hx
      exact ih x hx
    · rw [if_neg hpa] at hx
      simp only [List.head?_cons, Option.mem_def, Option.some.injEq] at hx
      subst hx
      exact Bool.eq_false_iff.mpr hpa

theorem dropWhile_eq_self_of_head {p : Char → Bool} {l : List Char}
    (h : ∀ x ∈ l.head?, p x = false) : l.dropWhile p = l := by
  cases l with
  | nil => rfl
  | cons a t =>
    rw [List.dropWhile_cons,
      if_neg (by rw [h a (by simp)]; simp)]

theorem dropWhile_suffix {p : Char → Bool} (l : List Char) :
    l.dropWhile p <:+ l := by
  induction l with
  | nil => exact List.suffix_refl _
  | cons a t ih =>
    rw [List.dropWhile_cons]
    by_cases hpa : p a = true
    · rw [if_pos hpa]
      exact ih.trans (List.suffix_cons _ _)
    · rw [if_neg hpa]

theorem rstripSlash_isPrefix (l : List Char) : rstripSlash l <+: l := by
  unfold rstripSlash
  conv_rhs => rw [← List.reverse_reverse l]
  exact List.reverse_prefix.mpr (dropWhile_suffix _)

theorem rstripSlash_getLast {l : List Char} :
    ∀ x ∈ (rstripSlash l).getLast?, x ≠ '/' := by
  intro x hx
  unfold rstripSlash at hx
  rw [List.getLast?_reverse] at hx
  have := head_dropWhile (p := fun c => c = '/') l.reverse x hx
  simpa using this

theorem rstripSlash_eq_self {l : List Char}
    (h : ∀ x ∈ l.getLast?, x ≠ '/') : rstripSlash l = l := by
  unfold rstripSlash
  rw [dropWhile_eq_self_of_head, List.reverse_reverse]
  intro x hx
  rw [List.head?_reverse] at hx
  exact decide_eq_false (h x hx)

theorem rstripSlash_idem (l : List Char) :
    rstripSlash (rstripSlash l) = rstripSlash l :=
  rstripSlash_eq_self rstripSlash_getLast

-- =========================================================================
-- Lemmas about the urlsplit stages
-- =========================================================================

theorem splitScheme_succeeds {c : List Char} {i : Nat} {hd : Char}
    {tl : List Char} (hc : c = hd :: tl)
    (hfind : c.findIdx? (fun x => x = ':') = some i)
    (hi : 0 < i) (halpha : hd.isAlpha = true)
    (hrest : (tl.take (i - 1)).all isSchemeRestChar = true) :
    splitScheme c = (lowerStr (c.take i), c.drop (i + 1)) := by
  subst hc
  unfold splitScheme
  simp only [hfind]
  rw [if_pos]
  rw [Bool.and_eq_true, Bool.and_eq_true]
  refine ⟨⟨by simpa using hi, halpha⟩, ?_⟩
  simpa using hrest

theorem splitScheme_eq_nil {c : List Char} (h : (splitScheme c).1 = []) :
    splitScheme c = ([], c) := by
  unfold splitScheme at h ⊢
  cases hf : c.findIdx? (fun x => x = ':') with
  | none => simp only [hf]
  | some i =>
    simp only [hf] at h ⊢
    split at h
    · rename_i hcond
      exfalso
      rw [Bool.and_eq_true, Bool.and_eq_true, decide_eq_true_eq] at hcond
      obtain ⟨⟨hi, _⟩, _⟩ := hcond
      have hlt := findIdxP_lt_length hf
      cases c with
      | nil => simp at hlt
      | cons a t =>
        rw [show i = (i - 1) + 1 by omega, List.take_succ_cons] at h
        simp [lowerStr] at h
    · rename_i hcond
      rw [if_neg hcond]

theorem splitScheme_success_of_ne {q : List Char}
    (h : (splitScheme q).1 ≠ []) :
    ∃ i hd tl, q = hd :: tl ∧ q.findIdx? (fun x => x = ':') = some i
      ∧ 0 < i ∧ hd.isAlpha = true
      ∧ (tl.take (i - 1)).all isSchemeRestChar = true := by
  unfold splitScheme at h
  cases hf : q.findIdx? (fun x => x = ':') with
  | none => rw [hf] at h; simp at h
  | some i =>
    simp only [hf] at h
    split at h
    · rename_i hcond
      rw [Bool.and_eq_true, Bool.and_eq_true, decide_eq_true_eq] at hcond
      obtain ⟨⟨hi, hmatch⟩, hall⟩ := hcond
      cases q with
      | nil => simp at hmatch
      | cons hd tl =>
        refine ⟨i, hd, tl, rfl, rfl, hi, hmatch, ?_⟩
        simpa using hall
    · simp at h

theorem splitScheme_nil_of_isPrefix {q c : List Char}
    (hpre : q <+: c) (hc : (splitScheme c).1 = []) :
    (splitScheme q).1 = [] := by
  by_contra hq
  obtain ⟨i, hd, tl, hqe, hfind, hi, halpha, hrest⟩ :=
    splitScheme_success_of_ne hq
  obtain ⟨t, rfl⟩ := hpre
  subst hqe
  have hlt := findIdxP_lt_length hfind
  simp only [List.length_cons] at hlt
  have hfind2 : ((hd :: tl) ++ t).findIdx? (fun x => x = ':') = some i :=
    findIdxP_append_left hfind t
  have hsucc := splitScheme_succeeds
    (show (hd :: tl) ++ t = hd :: (tl ++ t) from rfl) hfind2 hi halpha
    (by rw [List.take_append_of_le_length (by omega)]; exact hrest)
  rw [hsucc] at hc
  dsimp only at hc
  rw [List.cons_append, show i = (i - 1) + 1 by omega,
    List.take_succ_cons] at hc
  simp [lowerStr] at hc

theorem splitScheme_slash (l : List Char) :
    splitScheme ('/' :: l) = ([], '/' :: l) := by
  unfold splitScheme
  cases hf : ('/' :: l).findIdx? (fun x => x = ':') with
  | none => rfl
  | some i =>
    dsimp only
    rw [if_neg]
    simp

theorem splitOnFirst_of_not_mem {l : List Char} {ch : Char} (h : ch ∉ l) :
    splitOnFirst l ch = (l, []) := by
  unfold splitOnFirst
  rw [findIdxP_eq_none_of]
  intro x hx
  exact decide_eq_false (fun heq => h (heq ▸ hx))

theorem splitOnFirst_fst_isPrefix (l : List Char) (ch : Char) :
    (splitOnFirst l ch).1 <+: l := by
  unfold splitOnFirst
  cases hf : l.findIdx? (fun x => x = ch) with
  | none => exact List.prefix_refl _
  | some i => exact List.take_prefix _ _

theorem splitOnFirst_fst_not_mem (l : List Char) (ch : Char) :
    ch ∉ (splitOnFirst l ch).1 := by
  unfold splitOnFirst
  cases hf : l.findIdx? (fun x => x = ch) with
  | none =>
    intro hmem
    have := of_findIdxP_eq_none hf ch hmem
    simp at this
  | some i =>
    intro hmem
    have := mem_take_findIdxP hf ch hmem
    simp at this

theorem splitparams_fst_isPrefix (p : List Char) : (splitparams p).1 <+: p := by
  unfold splitparams
  split
  · cases hf : findSemiFrom p (lastSlashIdx p) with
    | none => exact List.prefix_refl _
    | some i => exact List.take_prefix _ _
  · cases hf : p.findIdx? (fun c => c = ';') with
    | none => exact List.prefix_refl _
    | some i => exact List.take_prefix _ _

theorem urlparse_path_isPrefix (u : List Char) :
    (urlparse u).path <+: (urlsplit u).path := by
  unfold urlparse
  dsimp only
  split
  · exact splitparams_fst_isPrefix _
  · exact List.prefix_refl _

theorem clean_no_unsafe {u : List Char} :
    ∀ x ∈ removeUnsafe (lstripC0 u), ¬(x = '\t' ∨ x = '\r' ∨ x = '\n') := by
  intro x hx
  have := List.of_mem_filter hx
  exact of_decide_eq_true this

theorem clean_head {u : List Char} :
    ∀ x ∈ (removeUnsafe (lstripC0 u)).head?, 0x20 < x.toNat := by
  intro x hx
  unfold removeUnsafe at hx
  cases hd : lstripC0 u with
  | nil => rw [hd] at hx; simp at hx
  | cons a t =>
    have ha : ¬(a.toNat ≤ 0x20) := by
      have := head_dropWhile (p := fun c => c.toNat ≤ 0x20) u a
      rw [show u.dropWhile (fun c => decide (c.toNat ≤ 0x20)) = a :: t from hd] at this
      have h2 := this (by simp)
      simpa using h2
    rw [hd] at hx
    rw [List.filter_cons, if_pos] at hx
    · simp only [List.head?_cons, Option.mem_def, Option.some.injEq] at hx
      subst hx
      omega
    · apply decide_eq_true
      intro hor
      apply ha
      rcases hor with h | h | h <;> (subst h; decide)

theorem clean_subset {u : List Char} :
    ∀ x ∈ removeUnsafe (lstripC0 u), x ∈ u := by
  intro x hx
  have h1 : x ∈ lstripC0 u := List.mem_of_mem_filter hx
  exact (dropWhile_suffix u).subset h1

theorem clean_eq_self {l : List Char}
    (h1 : ∀ x ∈ l.head?, 0x20 < x.toNat)
    (h2 : ∀ x ∈ l, ¬(x = '\t' ∨ x = '\r' ∨ x = '\n')) :
    removeUnsafe (lstripC0 l) = l := by
  unfold removeUnsafe lstripC0
  rw [dropWhile_eq_self_of_head]
  · rw [List.filter_eq_self.mpr]
    intro x hx
    exact decide_eq_true (h2 x hx)
  · intro x hx
    have := h1 x hx
    apply decide_eq_false
    omega

theorem scheme_char_gt_space {c : Char}
    (h : c.isAlpha = true ∨ isSchemeRestChar c = true) : 0x20 < c.toNat := by
  rcases h with h | h
  · exact alpha_gt_space c h
  · unfold isSchemeRestChar at h
    simp only [Bool.or_eq_true, decide_eq_true_eq] at h
    rcases h with ((((h | h) | h) | h) | h)
    · exact alpha_gt_space c h
    · have := (char_isDigit_iff c).mp h
      omega
    · subst h; decide
    · subst h; decide
    · subst h; decide

theorem scheme_char_ne_colon {c : Char}
    (h : c.isAlpha = true ∨ isSchemeRestChar c = true) : c ≠ ':' := by
  have h58 : c.toNat ≠ 58 := by
    rcases h with h | h
    · have := (char_isAlpha_iff c).mp h
      omega
    · unfold isSchemeRestChar at h
      simp only [Bool.or_eq_true, decide_eq_true_eq] at h
      rcases h with ((((h | h) | h) | h) | h)
      · have := (char_isAlpha_iff c).mp h
        omega
      · have := (char_isDigit_iff c).mp h
        omega
      · subst h; decide
      · subst h; decide
      · subst h; decide
  intro he
  subst he
  exact h58 (by decide)

theorem gt_space_not_unsafe {c : Char} (h : 0x20 < c.toNat) :
    ¬(c = '\t' ∨ c = '\r' ∨ c = '\n') := by
  rintro (rfl | rfl | rfl) <;> exact absurd h (by decide)

theorem splitScheme_append_colon {hd : Char} {tl : List Char}
    (url2 : List Char)
    (halpha : hd.isAlpha = true) (hall : tl.all isSchemeRestChar = true)
    (hlow : lowerStr (hd :: tl) = hd :: tl) :
    splitScheme ((hd :: tl) ++ ':' :: url2) = (hd :: tl, url2) := by
  have hne : ∀ x ∈ hd :: tl, (decide (x = ':')) = false := by
    intro x hx
    apply decide_eq_false
    rcases List.mem_cons.mp hx with rfl | hx
    · exact scheme_char_ne_colon (Or.inl halpha)
    · exact scheme_char_ne_colon (Or.inr (List.all_eq_true.mp hall x hx))
  have hfind : ((hd :: tl) ++ ':' :: url2).findIdx? (fun x => decide (x = ':'))
      = some (hd :: tl).length :=
    findIdxP_append_sep hne (by simp) url2
  have hs := splitScheme_succeeds
      (show (hd :: tl) ++ ':' :: url2 = hd :: (tl ++ ':' :: url2) from rfl)
      hfind (by simp) halpha
      (by
        rw [show (hd :: tl).length - 1 = tl.length from by simp]
        rw [List.take_left]
        exact hall)
  rw [hs]
  rw [List.take_left, hlow]
  rw [List.append_cons]
  rw [show (hd :: tl).length + 1 = ((hd :: tl) ++ [':']).length from by simp]
  rw [List.drop_left]

theorem splitNetloc_spec {h p : List Char}
    (Hh : ∀ x ∈ h, (x = '/' || x = '?' || x = '#') = false)
    (hp : p = [] ∨ p.head? = some '/') :
    splitNetloc ('/' :: '/' :: (h ++ p)) = (h, p) := by
  unfold splitNetloc
  dsimp only
  rw [show ('/' :: '/' :: (h ++ p)).drop 2 = h ++ p from rfl]
  rcases hp with rfl | hp
  · have hfi := findIdx_append_all_false Hh ([] : List Char)
    rw [List.append_nil, List.findIdx_nil, Nat.add_zero] at hfi
    rw [List.append_nil, hfi, List.take_length, List.drop_length]
  · cases p with
    | nil => simp at hp
    | cons a t =>
      simp only [List.head?_cons, Option.some.injEq] at hp
      subst hp
      have hfi : (h ++ '/' :: t).findIdx (fun c => c = '/' || c = '?' || c = '#')
          = h.length := by
        rw [findIdx_append_all_false Hh]
        simp [List.findIdx_cons]
      rw [hfi, List.take_left, List.drop_left]

theorem urlunsplit_roundtrip {s h p : List Char}
    (Hs : s = [] ∨ ∃ hd tl, s = hd :: tl ∧ hd.isAlpha = true
        ∧ tl.all isSchemeRestChar = true ∧ lowerStr (hd :: tl) = hd :: tl)
    (Hh : ∀ x ∈ h, x ≠ '/' ∧ x ≠ '?' ∧ x ≠ '#' ∧ x ≠ '\t' ∧ x ≠ '\r' ∧ x ≠ '\n')
    (Hp1 : ∀ x ∈ p, x ≠ '?' ∧ x ≠ '#' ∧ x ≠ '\t' ∧ x ≠ '\r' ∧ x ≠ '\n')
    (Hp2 : h ≠ [] → p = [] ∨ p.head? = some '/')
    (Hp3 : s = [] → h = [] → ¬(p.take 2 = ['/', '/']) →
        (splitScheme p).1 = [] ∧ ∀ x ∈ p.head?, 0x20 < x.toNat)
    (Hp4 : p.take 2 = ['/', '/'] → h ≠ [])
    (Hp5 : h = [] → s ≠ [] → s ∈ uses_netloc → p = [] ∨ p.head? = some '/') :
    urlsplit (urlunsplit s h p [] []) = ⟨s, h, p, [], []⟩ := by
  have HhB : ∀ x ∈ h, (x = '/' || x = '?' || x = '#') = false := by
    intro x hx
    obtain ⟨h1, h2, h3, _⟩ := Hh x hx
    simp [h1, h2, h3]
  have hnofrag : '#' ∉ p := fun hm => ((Hp1 _ hm).2.1) rfl
  have hnoq : '?' ∉ p := fun hm => ((Hp1 _ hm).1) rfl
  have hpun : ∀ x ∈ p, ¬(x = '\t' ∨ x = '\r' ∨ x = '\n') := by
    intro x hx
    obtain ⟨_, _, h3, h4, h5⟩ := Hp1 x hx
    rintro (he | he | he)
    exacts [h3 he, h4 he, h5 he]
  have hhun : ∀ x ∈ h, ¬(x = '\t' ∨ x = '\r' ∨ x = '\n') := by
    intro x hx
    obtain ⟨_, _, _, h4, h5, h6⟩ := Hh x hx
    rintro (he | he | he)
    exacts [h4 he, h5 he, h6 he]
  by_cases hc : h ≠ [] ∨ (s ≠ [] ∧ s ∈ uses_netloc ∧ p.take 2 ≠ ['/', '/'])
  · have hp' : p = [] ∨ p.head? = some '/' := by
      by_cases hh0 : h = []
      · rcases hc with hc | ⟨hs1, hs2, _⟩
        · exact absurd hh0 hc
        · exact Hp5 hh0 hs1 hs2
      · exact Hp2 hh0
    have hP : (if p ≠ [] ∧ p.head? ≠ some '/' then '/' :: p else p) = p := by
      rcases hp' with rfl | hp'
      · rw [if_neg]
        simp
      · rw [if_neg]
        rintro ⟨_, hne⟩
        exact hne hp'
    have hfull' : urlunsplit s h p [] [] =
        (if s ≠ [] then s ++ ':' :: ('/' :: '/' :: (h ++ p))
         else '/' :: '/' :: (h ++ p)) := by
      unfold urlunsplit
      dsimp only
      rw [if_pos hc, hP]
      rw [if_neg (by simp), if_neg (by simp)]
    rcases Hs with rfl | ⟨hd, tl, rfl, halpha, hall, hlow⟩
    · have hfull : urlunsplit [] h p [] [] = '/' :: '/' :: (h ++ p) := by
        rw [hfull', if_neg (by simp)]
      have hcl : removeUnsafe (lstripC0 ('/' :: '/' :: (h ++ p)))
          = '/' :: '/' :: (h ++ p) := by
        apply clean_eq_self
        · intro x hx
          simp only [List.head?_cons, Option.mem_def, Option.some.injEq] at hx
          subst hx
          decide
        · intro x hx
          simp only [List.mem_cons, List.mem_append] at hx
          rcases hx with rfl | rfl | hx | hx
          · decide
          · decide
          · exact hhun x hx
          · exact hpun x hx
      rw [hfull]
      unfold urlsplit
      dsimp only
      rw [hcl, splitScheme_slash]
      dsimp only
      rw [if_pos (show ('/' :: '/' :: (h ++ p)).take 2 = ['/', '/'] from rfl)]
      rw [splitNetloc_spec HhB hp']
      dsimp only
      rw [splitOnFirst_of_not_mem hnofrag]
      dsimp only
      rw [splitOnFirst_of_not_mem hnoq]
    · have hfull : urlunsplit (hd :: tl) h p [] [] =
          (hd :: tl) ++ ':' :: ('/' :: '/' :: (h ++ p)) := by
        rw [hfull', if_pos (by simp)]
      have hcl : removeUnsafe (lstripC0 ((hd :: tl) ++ ':' :: ('/' :: '/' :: (h ++ p))))
          = (hd :: tl) ++ ':' :: ('/' :: '/' :: (h ++ p)) := by
        apply clean_eq_self
        · intro x hx
          rw [List.cons_append] at hx
          simp only [List.head?_cons, Option.mem_def, Option.some.injEq] at hx
          subst hx
          exact alpha_gt_space hd halpha
        · intro x hx
          simp only [List.mem_append, List.mem_cons] at hx
          rcases hx with (rfl | hx) | rfl | rfl | rfl | hx | hx
          · exact gt_space_not_unsafe (scheme_char_gt_space (Or.inl halpha))
          · exact gt_space_not_unsafe
              (scheme_char_gt_space (Or.inr (List.all_eq_true.mp hall x hx)))
          · decide
          · decide
          · decide
          · exact hhun x hx
          · exact hpun x hx
      rw [hfull]
      unfold urlsplit
      dsimp only
      rw [hcl, splitScheme_append_colon ('/' :: '/' :: (h ++ p)) halpha hall hlow]
      dsimp only
      rw [if_pos (show ('/' :: '/' :: (h ++ p)).take 2 = ['/', '/'] from rfl)]
      rw [splitNetloc_spec HhB hp']
      dsimp only
      rw [splitOnFirst_of_not_mem hnofrag]
      dsimp only
      rw [splitOnFirst_of_not_mem hnoq]
  · have hh0 : h = [] := by
      by_contra hne
      exact hc (Or.inl hne)
    subst hh0
    have hptake : ¬(p.take 2 = ['/', '/']) := fun ht => Hp4 ht rfl
    have hfull' : urlunsplit s [] p [] [] =
        (if s ≠ [] then s ++ ':' :: p else p) := by
      unfold urlunsplit
      dsimp only
      rw [if_neg hc]
      rw [if_neg (by simp), if_neg (by simp)]
    rcases Hs with rfl | ⟨hd, tl, rfl, halpha, hall, hlow⟩
    · obtain ⟨hps, hphead⟩ := Hp3 rfl rfl hptake
      have hfull : urlunsplit [] [] p [] [] = p := by
        rw [hfull', if_neg (by simp)]
      have hcl : removeUnsafe (lstripC0 p) = p := clean_eq_self hphead hpun
      have hscheme : splitScheme p = ([], p) := splitScheme_eq_nil hps
      rw [hfull]
      unfold urlsplit
      dsimp only
      rw [hcl, hscheme]
      dsimp only
      rw [if_neg hptake]
      dsimp only
      rw [splitOnFirst_of_not_mem hnofrag]
      dsimp only
      rw [splitOnFirst_of_not_mem hnoq]
    · have hfull : urlunsplit (hd :: tl) [] p [] [] = (hd :: tl) ++ ':' :: p := by
        rw [hfull', if_pos (by simp)]
      have hcl : removeUnsafe (lstripC0 ((hd :: tl) ++ ':' :: p))
          = (hd :: tl) ++ ':' :: p := by
        apply clean_eq_self
        · intro x hx
          rw [List.cons_append] at hx
          simp only [List.head?_cons, Option.mem_def, Option.some.injEq] at hx
          subst hx
          exact alpha_gt_space hd halpha
        · intro x hx
          simp only [List.mem_append, List.mem_cons] at hx
          rcases hx with (rfl | hx) | rfl | hx
          · exact gt_space_not_unsafe (scheme_char_gt_space (Or.inl halpha))
          · exact gt_space_not_unsafe
              (scheme_char_gt_space (Or.inr (List.all_eq_true.mp hall x hx)))
          · decide
          · exact hpun x hx
      rw [hfull]
      unfold urlsplit
      dsimp only
      rw [hcl, splitScheme_append_colon p halpha hall hlow]
      dsimp only
      rw [if_neg hptake]
      dsimp only
      rw [splitOnFirst_of_not_mem hnofrag]
      dsimp only
      rw [splitOnFirst_of_not_mem hnoq]

theorem head_of_isPrefix {l₁ l₂ : List Char} (h : l₁ <+: l₂) (hne : l₁ ≠ []) :
    l₂.head? = l₁.head? := by
  obtain ⟨t, rfl⟩ := h
  cases l₁ with
  | nil => exact absurd rfl hne
  | cons a l => rfl

theorem mem_removeWWW {x : Char} {l : List Char} (h : x ∈ removeWWW l) :
    x ∈ l := by
  induction l using removeWWW.induct with
  | case1 rest ih =>
    rw [removeWWW] at h
    exact List.mem_cons_of_mem _ (List.mem_cons_of_mem _
      (List.mem_cons_of_mem _ (List.mem_cons_of_mem _ (ih h))))
  | case2 c rest hne ih =>
    rw [removeWWW] at h
    · rcases List.mem_cons.mp h with rfl | h2
      · exact List.mem_cons_self _ _
      · exact List.mem_cons_of_mem _ (ih h2)
    · exact hne
  | case3 => simp [removeWWW] at h

theorem map_fix_mem {f : Char → Char} {l : List Char} (h : l.map f = l) :
    ∀ x ∈ l, f x = x := by
  induction l with
  | nil => intro x hx; simp at hx
  | cons a t ih =>
    rw [List.map_cons, List.cons.injEq] at h
    intro x hx
    rcases List.mem_cons.mp hx with rfl | hx
    · exact h.1
    · exact ih h.2 x hx

theorem map_eq_self_of_mem {f : Char → Char} {l : List Char}
    (h : ∀ x ∈ l, f x = x) : l.map f = l := by
  induction l with
  | nil => rfl
  | cons a t ih =>
    rw [List.map_cons, h a (List.mem_cons_self a t),
      ih (fun x hx => h x (List.mem_cons_of_mem a hx))]

theorem lowerStr_eq_self {l : List Char} (h : ∀ x ∈ l, x.toLower = x) :
    lowerStr l = l := map_eq_self_of_mem h

theorem mem_lowerStr_fix {x : Char} {l : List Char}
    (hfix : lowerStr l = l) (hx : x ∈ l) : x.toLower = x :=
  map_fix_mem hfix x hx

theorem splitNetloc_fst (l : List Char) :
    (splitNetloc l).1 = (l.drop 2).take
      ((l.drop 2).findIdx (fun ch => ch = '/' || ch = '?' || ch = '#')) := rfl

theorem splitNetloc_snd (l : List Char) :
    (splitNetloc l).2 = (l.drop 2).drop
      ((l.drop 2).findIdx (fun ch => ch = '/' || ch = '?' || ch = '#')) := rfl

theorem splitScheme_snd_subset (c : List Char) :
    ∀ x ∈ (splitScheme c).2, x ∈ c := by
  intro x hx
  unfold splitScheme at hx
  cases hf : c.findIdx? (fun z => z = ':') with
  | none =>
    simp only [hf] at hx
    exact hx
  | some i =>
    simp only [hf] at hx
    split at hx
    · exact List.mem_of_mem_drop hx
    · exact hx

theorem urlsplit_scheme_eq (u : List Char) :
    (urlsplit u).scheme = (splitScheme (removeUnsafe (lstripC0 u))).1 := rfl

theorem urlparse_scheme (u : List Char) :
    (urlparse u).scheme = (urlsplit u).scheme := by
  unfold urlparse
  dsimp only
  split <;> rfl

theorem urlparse_netloc (u : List Char) :
    (urlparse u).netloc = (urlsplit u).netloc := by
  unfold urlparse
  dsimp only
  split <;> rfl

theorem urlsplit_netloc_facts (u : List Char) :
    ∀ x ∈ (urlsplit u).netloc, x ≠ '/' ∧ x ≠ '?' ∧ x ≠ '#'
      ∧ x ∈ removeUnsafe (lstripC0 u) := by
  intro x hx
  unfold urlsplit at hx
  dsimp only at hx
  split at hx
  · rw [splitNetloc_fst] at hx
    have hpred := mem_take_findIdx
      ((splitScheme (removeUnsafe (lstripC0 u))).2.drop 2) x hx
    simp only [Bool.or_eq_false_iff, decide_eq_false_iff_not] at hpred
    refine ⟨hpred.1.1, hpred.1.2, hpred.2, ?_⟩
    exact splitScheme_snd_subset _ x
      (List.mem_of_mem_drop (List.mem_of_mem_take hx))
  · simp at hx

theorem urlsplit_path_facts (u : List Char) :
    ∀ x ∈ (urlsplit u).path, x ≠ '?' ∧ x ≠ '#'
      ∧ x ∈ removeUnsafe (lstripC0 u) := by
  intro x hx
  unfold urlsplit at hx
  dsimp only at hx
  have hq := (splitOnFirst_fst_isPrefix _ '?').subset hx
  refine ⟨fun he => splitOnFirst_fst_not_mem _ '?' (he ▸ hx),
    fun he => splitOnFirst_fst_not_mem _ '#' (he ▸ hq), ?_⟩
  have hx3 := (splitOnFirst_fst_isPrefix _ '#').subset hq
  split at hx3
  · rw [splitNetloc_snd] at hx3
    exact splitScheme_snd_subset _ x
      (List.mem_of_mem_drop (List.mem_of_mem_drop hx3))
  · exact splitScheme_snd_subset _ x hx3

theorem urlsplit_scheme_facts (u : List Char) :
    (urlsplit u).scheme = [] ∨ ∃ hd tl, (urlsplit u).scheme = hd :: tl
      ∧ hd.isAlpha = true ∧ tl.all isSchemeRestChar = true
      ∧ lowerStr (hd :: tl) = hd :: tl := by
  by_cases h0 : (splitScheme (removeUnsafe (lstripC0 u))).1 = []
  · left
    rw [urlsplit_scheme_eq, h0]
  · right
    obtain ⟨i, a, t, hce, hfind, hi, halpha, hrest⟩ :=
      splitScheme_success_of_ne h0
    obtain ⟨j, rfl⟩ : ∃ j, i = j + 1 := ⟨i - 1, by omega⟩
    rw [Nat.add_sub_cancel] at hrest
    have hs := splitScheme_succeeds hce hfind hi halpha
      (by rw [Nat.add_sub_cancel]; exact hrest)
    refine ⟨a.toLower, lowerStr (t.take j), ?_, toLower_isAlpha a halpha,
      ?_, ?_⟩
    · rw [urlsplit_scheme_eq, hs]
      dsimp only
      rw [hce, List.take_succ_cons]
      rfl
    · rw [List.all_eq_true]
      intro x hxm
      obtain ⟨y, hy, rfl⟩ := mem_lowerStr hxm
      exact toLower_isSchemeRest y (List.all_eq_true.mp hrest y hy)
    · show (a.toLower :: lowerStr (t.take j)).map Char.toLower = _
      rw [List.map_cons, toLower_idem]
      exact congrArg (List.cons a.toLower) (lowerStr_idem (t.take j))

theorem path_head_slash {u2 : List Char} {b : Char} {bt : List Char}
    (hpl : (splitOnFirst (splitOnFirst (splitNetloc u2).2 '#').1 '?').1
      = b :: bt) : b = '/' := by
  have hmemP : b ∈ (splitOnFirst (splitOnFirst (splitNetloc u2).2 '#').1 '?').1 := by
    rw [hpl]
    exact List.mem_cons_self _ _
  have hb1 : b ≠ '?' := fun he => splitOnFirst_fst_not_mem _ '?' (he ▸ hmemP)
  have hmemF := (splitOnFirst_fst_isPrefix _ '?').subset hmemP
  have hb2 : b ≠ '#' := fun he => splitOnFirst_fst_not_mem _ '#' (he ▸ hmemF)
  have hpref : (splitOnFirst (splitOnFirst (splitNetloc u2).2 '#').1 '?').1
      <+: (splitNetloc u2).2 :=
    (splitOnFirst_fst_isPrefix _ '?').trans (splitOnFirst_fst_isPrefix _ '#')
  have hu3head : (splitNetloc u2).2.head? = some b := by
    rw [head_of_isPrefix hpref (by rw [hpl]; simp), hpl]
    rfl
  rw [splitNetloc_snd] at hu3head
  have hpredA := head_drop_findIdx _ b (Option.mem_def.mpr hu3head)
  simp only [Bool.or_eq_true, decide_eq_true_eq] at hpredA
  rcases hpredA with (hb | hb) | hb
  · exact hb
  · exact absurd hb hb1
  · exact absurd hb hb2

theorem urlsplit_netloc_path (u : List Char)
    (hn : (urlsplit u).netloc ≠ []) :
    (urlsplit u).path = [] ∨ (urlsplit u).path.head? = some '/' := by
  unfold urlsplit at hn ⊢
  dsimp only at hn ⊢
  by_cases htk : (splitScheme (removeUnsafe (lstripC0 u))).2.take 2 = ['/', '/']
  · rw [if_pos htk] at hn ⊢
    cases hpl : (splitOnFirst (splitOnFirst
        (splitNetloc (splitScheme (removeUnsafe (lstripC0 u))).2).2 '#').1 '?').1 with
    | nil => exact Or.inl rfl
    | cons b bt =>
      right
      rw [List.head?_cons, path_head_slash hpl]
  · rw [if_neg htk] at hn
    exact absurd rfl hn

theorem urlsplit_noscheme_path (u : List Char)
    (hs : (urlsplit u).scheme = []) :
    (splitScheme (urlsplit u).path).1 = []
      ∧ ∀ x ∈ (urlsplit u).path.head?, 0x20 < x.toNat := by
  rw [urlsplit_scheme_eq] at hs
  unfold urlsplit
  dsimp only
  by_cases htk : (splitScheme (removeUnsafe (lstripC0 u))).2.take 2 = ['/', '/']
  · rw [if_pos htk]
    cases hpl : (splitOnFirst (splitOnFirst
        (splitNetloc (splitScheme (removeUnsafe (lstripC0 u))).2).2 '#').1 '?').1 with
    | nil =>
      constructor
      · rfl
      · intro x hx
        simp at hx
    | cons b bt =>
      have hb := path_head_slash hpl
      subst hb
      constructor
      · rw [splitScheme_slash]
      · intro x hx
        simp only [List.head?_cons, Option.mem_def, Option.some.injEq] at hx
        subst hx
        decide
  · rw [if_neg htk]
    dsimp only
    have hceq : (splitScheme (removeUnsafe (lstripC0 u))).2
        = removeUnsafe (lstripC0 u) := by
      rw [splitScheme_eq_nil hs]
    rw [hceq]
    have hpref : (splitOnFirst (splitOnFirst (removeUnsafe (lstripC0 u)) '#').1 '?').1
        <+: removeUnsafe (lstripC0 u) :=
      (splitOnFirst_fst_isPrefix _ '?').trans (splitOnFirst_fst_isPrefix _ '#')
    constructor
    · exact splitScheme_nil_of_isPrefix hpref hs
    · intro x hx
      have hne : (splitOnFirst (splitOnFirst (removeUnsafe (lstripC0 u)) '#').1 '?').1
          ≠ [] := by
        intro h0
        rw [h0] at hx
        simp at hx
      exact clean_head x (by rw [head_of_isPrefix hpref hne]; exact hx)

theorem normalize_url_eq_unsplit (u : List Char) :
    URLTracker.normalize_url u =
      urlunsplit (urlparse (rstripSlash (lowerStr u))).scheme
        (removeWWW (urlparse (rstripSlash (lowerStr u))).netloc)
        (rstripSlash (urlparse (rstripSlash (lowerStr u))).path) [] [] := by
  unfold URLTracker.normalize_url urlunparse
  dsimp only
  rw [if_neg (fun hne : ([] : List Char) ≠ [] => hne rfl)]

theorem normalize_url_split (u : List Char)
    (hp4 : (rstripSlash (urlparse (rstripSlash (lowerStr u))).path).take 2
        = ['/', '/'] → removeWWW (urlparse (rstripSlash (lowerStr u))).netloc ≠ [])
    (hp5 : removeWWW (urlparse (rstripSlash (lowerStr u))).netloc = [] →
        (urlparse (rstripSlash (lowerStr u))).scheme ≠ [] →
        (urlparse (rstripSlash (lowerStr u))).scheme ∈ uses_netloc →
        rstripSlash (urlparse (rstripSlash (lowerStr u))).path = []
          ∨ (rstripSlash (urlparse (rstripSlash (lowerStr u))).path).head?
            = some '/') :
    urlsplit (URLTracker.normalize_url u) =
      ⟨(urlparse (rstripSlash (lowerStr u))).scheme,
        removeWWW (urlparse (rstripSlash (lowerStr u))).netloc,
        rstripSlash (urlparse (rstripSlash (lowerStr u))).path, [], []⟩ := by
  rw [normalize_url_eq_unsplit]
  apply urlunsplit_roundtrip
  · rw [urlparse_scheme]
    exact urlsplit_scheme_facts _
  · intro x hx
    have hx' := mem_removeWWW hx
    rw [urlparse_netloc] at hx'
    obtain ⟨h1, h2, h3, hc⟩ := urlsplit_netloc_facts _ x hx'
    have hun := clean_no_unsafe x hc
    exact ⟨h1, h2, h3, fun he => hun (Or.inl he),
      fun he => hun (Or.inr (Or.inl he)), fun he => hun (Or.inr (Or.inr he))⟩
  · intro x hx
    have hx1 := (rstripSlash_isPrefix _).subset hx
    have hx2 := (urlparse_path_isPrefix _).subset hx1
    obtain ⟨h1, h2, hc⟩ := urlsplit_path_facts _ x hx2
    have hun := clean_no_unsafe x hc
    exact ⟨h1, h2, fun he => hun (Or.inl he),
      fun he => hun (Or.inr (Or.inl he)), fun he => hun (Or.inr (Or.inr he))⟩
  · intro hne
    have hnl : (urlsplit (rstripSlash (lowerStr u))).netloc ≠ [] := by
      intro h0
      apply hne
      rw [urlparse_netloc, h0]
      rfl
    rcases urlsplit_netloc_path _ hnl with hp0 | hp0
    · left
      have hpe : (urlparse (rstripSlash (lowerStr u))).path = [] := by
        have hpp := urlparse_path_isPrefix (rstripSlash (lowerStr u))
        rw [hp0] at hpp
        exact List.prefix_nil.mp hpp
      rw [hpe]
      rfl
    · by_cases hre : rstripSlash (urlparse (rstripSlash (lowerStr u))).path = []
      · exact Or.inl hre
      · right
        have hpr1 : rstripSlash (urlparse (rstripSlash (lowerStr u))).path
            <+: (urlparse (rstripSlash (lowerStr u))).path := rstripSlash_isPrefix _
        have hne2 : (urlparse (rstripSlash (lowerStr u))).path ≠ [] := by
          intro h0
          apply hre
          rw [h0]
          rfl
        have h1 := head_of_isPrefix hpr1 hre
        have h2 := head_of_isPrefix (urlparse_path_isPrefix (rstripSlash (lowerStr u))) hne2
        rw [← h1, ← h2]
        exact hp0
  · intro hs0 _ _
    have hs1 : (urlsplit (rstripSlash (lowerStr u))).scheme = [] := by
      rw [← urlparse_scheme]
      exact hs0
    obtain ⟨hsp, hhd⟩ := urlsplit_noscheme_path _ hs1
    constructor
    · exact splitScheme_nil_of_isPrefix
        ((rstripSlash_isPrefix _).trans (urlparse_path_isPrefix _)) hsp
    · intro x hx
      have hre : rstripSlash (urlparse (rstripSlash (lowerStr u))).path ≠ [] := by
        intro h0
        rw [h0] at hx
        simp at hx
      have hpre := (rstripSlash_isPrefix
        (urlparse (rstripSlash (lowerStr u))).path).trans (urlparse_path_isPrefix _)
      exact hhd x (by rw [head_of_isPrefix hpre hre]; exact hx)
  · exact hp4
  · exact hp5

theorem mem_urlunsplit {x : Char} {s h p : List Char}
    (hx : x ∈ urlunsplit s h p [] []) :
    x ∈ s ∨ x ∈ h ∨ x ∈ p ∨ x = '/' ∨ x = ':' := by
  unfold urlunsplit at hx
  dsimp only at hx
  rw [if_neg (fun hne : ([] : List Char) ≠ [] => hne rfl),
    if_neg (fun hne : ([] : List Char) ≠ [] => hne rfl)] at hx
  by_cases hc : h ≠ [] ∨ (s ≠ [] ∧ s ∈ uses_netloc ∧ p.take 2 ≠ ['/', '/'])
  · rw [if_pos hc] at hx
    by_cases hP : p ≠ [] ∧ p.head? ≠ some '/'
    · rw [if_pos hP] at hx
      by_cases hsne : s ≠ []
      · rw [if_pos hsne] at hx
        simp only [List.mem_append, List.mem_cons] at hx
        tauto
      · rw [if_neg hsne] at hx
        simp only [List.mem_append, List.mem_cons] at hx
        tauto
    · rw [if_neg hP] at hx
      by_cases hsne : s ≠ []
      · rw [if_pos hsne] at hx
        simp only [List.mem_append, List.mem_cons] at hx
        tauto
      · rw [if_neg hsne] at hx
        simp only [List.mem_append, List.mem_cons] at hx
        tauto
  · rw [if_neg hc] at hx
    by_cases hsne : s ≠ []
    · rw [if_pos hsne] at hx
      simp only [List.mem_append, List.mem_cons] at hx
      tauto
    · rw [if_neg hsne] at hx
      tauto

theorem getLast_urlunsplit {x : Char} {s h p : List Char}
    (hx : x ∈ (urlunsplit s h p [] []).getLast?) :
    x ∈ p.getLast? ∨ (p = [] ∧ x ∈ h.getLast?) ∨ x = ':'
      ∨ (p = [] ∧ h = [] ∧ x = '/') := by
  unfold urlunsplit at hx
  dsimp only at hx
  rw [if_neg (fun hne : ([] : List Char) ≠ [] => hne rfl),
    if_neg (fun hne : ([] : List Char) ≠ [] => hne rfl)] at hx
  by_cases hc : h ≠ [] ∨ (s ≠ [] ∧ s ∈ uses_netloc ∧ p.take 2 ≠ ['/', '/'])
  · rw [if_pos hc] at hx
    by_cases hp0 : p = []
    · subst hp0
      rw [if_neg (show ¬(([] : List Char) ≠ [] ∧ ([] : List Char).head? ≠ some '/')
        from by simp)] at hx
      rw [List.append_nil] at hx
      by_cases hh0 : h = []
      · subst hh0
        by_cases hsne : s ≠ []
        · rw [if_pos hsne] at hx
          rw [List.getLast?_append_of_ne_nil _ (by simp)] at hx
          simp at hx
          exact Or.inr (Or.inr (Or.inr ⟨rfl, rfl, hx.symm⟩))
        · rw [if_neg hsne] at hx
          simp at hx
          exact Or.inr (Or.inr (Or.inr ⟨rfl, rfl, hx.symm⟩))
      · have hkey : ('/' :: '/' :: h).getLast? = h.getLast? := by
          rw [show ('/' :: '/' :: h : List Char) = ['/', '/'] ++ h from rfl]
          exact List.getLast?_append_of_ne_nil _ hh0
        by_cases hsne : s ≠ []
        · rw [if_pos hsne] at hx
          rw [List.getLast?_append_of_ne_nil _ (by simp)] at hx
          rw [show (':' :: '/' :: '/' :: h : List Char)
              = [':'] ++ ('/' :: '/' :: h) from rfl] at hx
          rw [List.getLast?_append_of_ne_nil _ (by simp), hkey] at hx
          exact Or.inr (Or.inl ⟨rfl, hx⟩)
        · rw [if_neg hsne] at hx
          rw [hkey] at hx
          exact Or.inr (Or.inl ⟨rfl, hx⟩)
    · have hPne : (if p ≠ [] ∧ p.head? ≠ some '/' then '/' :: p else p) ≠ [] := by
        split
        · simp
        · exact hp0
      have hPp : (if p ≠ [] ∧ p.head? ≠ some '/' then '/' :: p else p).getLast?
          = p.getLast? := by
        split
        · rw [show ('/' :: p : List Char) = ['/'] ++ p from rfl]
          exact List.getLast?_append_of_ne_nil _ hp0
        · rfl
      have hkey : ('/' :: '/' :: (h ++
          (if p ≠ [] ∧ p.head? ≠ some '/' then '/' :: p else p))).getLast?
          = p.getLast? := by
        rw [show ('/' :: '/' :: (h ++
            (if p ≠ [] ∧ p.head? ≠ some '/' then '/' :: p else p)) : List Char)
          = ['/', '/'] ++ (h ++
            (if p ≠ [] ∧ p.head? ≠ some '/' then '/' :: p else p)) from rfl]
        rw [List.getLast?_append_of_ne_nil _
          (fun h0 => hPne (List.append_eq_nil.mp h0).2)]
        rw [List.getLast?_append_of_ne_nil _ hPne, hPp]
      by_cases hsne : s ≠ []
      · rw [if_pos hsne] at hx
        rw [List.getLast?_append_of_ne_nil _ (by simp)] at hx
        rw [show (':' :: '/' :: '/' :: (h ++
            (if p ≠ [] ∧ p.head? ≠ some '/' then '/' :: p else p)) : List Char)
          = [':'] ++ ('/' :: '/' :: (h ++
            (if p ≠ [] ∧ p.head? ≠ some '/' then '/' :: p else p))) from rfl] at hx
        rw [List.getLast?_append_of_ne_nil _ (by simp), hkey] at hx
        exact Or.inl hx
      · rw [if_neg hsne] at hx
        rw [hkey] at hx
        exact Or.inl hx
  · rw [if_neg hc] at hx
    by_cases hp0 : p = []
    · subst hp0
      by_cases hsne : s ≠ []
      · rw [if_pos hsne] at hx
        rw [List.getLast?_append_of_ne_nil _ (by simp)] at hx
        simp at hx
        exact Or.inr (Or.inr (Or.inl hx.symm))
      · rw [if_neg hsne] at hx
        simp at hx
    · by_cases hsne : s ≠ []
      · rw [if_pos hsne] at hx
        rw [List.getLast?_append_of_ne_nil _ (by simp)] at hx
        rw [show (':' :: p : List Char) = [':'] ++ p from rfl] at hx
        rw [List.getLast?_append_of_ne_nil _ hp0] at hx
        exact Or.inl hx
      · rw [if_neg hsne] at hx
        exact Or.inl hx

theorem normalize_url_lower (u : List Char) :
    lowerStr (URLTracker.normalize_url u) = URLTracker.normalize_url u := by
  apply lowerStr_eq_self
  intro x hx
  rw [normalize_url_eq_unsplit] at hx
  have hclean_low : ∀ y ∈ removeUnsafe (lstripC0 (rstripSlash (lowerStr u))),
      y.toLower = y := by
    intro y hy
    have hy1 := clean_subset y hy
    have hy2 := (rstripSlash_isPrefix (lowerStr u)).subset hy1
    obtain ⟨z, _, rfl⟩ := mem_lowerStr hy2
    exact toLower_idem z
  rcases mem_urlunsplit hx with hx | hx | hx | rfl | rfl
  · rw [urlparse_scheme] at hx
    rcases urlsplit_scheme_facts (rstripSlash (lowerStr u)) with h0 | ⟨hd, tl, he, _, _, hlow⟩
    · rw [h0] at hx
      simp at hx
    · rw [he] at hx
      exact mem_lowerStr_fix hlow hx
  · have hx' := mem_removeWWW hx
    rw [urlparse_netloc] at hx'
    exact hclean_low x (urlsplit_netloc_facts _ x hx').2.2.2
  · have hx1 := (rstripSlash_isPrefix _).subset hx
    have hx2 := (urlparse_path_isPrefix _).subset hx1
    exact hclean_low x (urlsplit_path_facts _ x hx2).2.2
  · decide
  · decide

theorem normalize_url_rstrip (u : List Char)
    (h0 : removeWWW (urlparse (rstripSlash (lowerStr u))).netloc ≠ []
        ∨ rstripSlash (urlparse (rstripSlash (lowerStr u))).path ≠ []) :
    rstripSlash (URLTracker.normalize_url u) = URLTracker.normalize_url u := by
  apply rstripSlash_eq_self
  intro x hx
  rw [normalize_url_eq_unsplit] at hx
  rcases getLast_urlunsplit hx with hx | ⟨_, hx⟩ | rfl | ⟨hp0, hh0, rfl⟩
  · exact rstripSlash_getLast x hx
  · have hm := mem_removeWWW (List.mem_of_mem_getLast? hx)
    rw [urlparse_netloc] at hm
    exact (urlsplit_netloc_facts (rstripSlash (lowerStr u)) x hm).1
  · decide
  · rcases h0 with h0 | h0
    · exact absurd hh0 h0
    · exact absurd hp0 h0

/-- C7: `URLTracker.normalize_url` lowercases and slash-rstrips the
input, parses it, and — provided the stripped path does not start with
`//` while the `www.`-cleaned netloc is empty, and a `uses_netloc` scheme
with an empty cleaned netloc only occurs with an empty or `/`-headed
stripped path (CPython 3.11's urlunsplit otherwise moves path characters
into the netloc or inserts a `/`) — emits a URL whose split has the same
scheme, the netloc with every occurrence of `www.` removed (not only a
leading one), the path with all trailing slashes stripped (not a single
one), and empty query and fragment; the output is lowercase-fixed. -/
theorem normalize_url_spec (u : List Char)
    (hp4 : (rstripSlash (urlparse (rstripSlash (lowerStr u))).path).take 2
        = ['/', '/'] → removeWWW (urlparse (rstripSlash (lowerStr u))).netloc ≠ [])
    (hp5 : removeWWW (urlparse (rstripSlash (lowerStr u))).netloc = [] →
        (urlparse (rstripSlash (lowerStr u))).scheme ≠ [] →
        (urlparse (rstripSlash (lowerStr u))).scheme ∈ uses_netloc →
        rstripSlash (urlparse (rstripSlash (lowerStr u))).path = []
          ∨ (rstripSlash (urlparse (rstripSlash (lowerStr u))).path).head?
            = some '/') :
    urlsplit (URLTracker.normalize_url u) =
      ⟨(urlparse (rstripSlash (lowerStr u))).scheme,
        removeWWW (urlparse (rstripSlash (lowerStr u))).netloc,
        rstripSlash (urlparse (rstripSlash (lowerStr u))).path, [], []⟩
    ∧ lowerStr (URLTracker.normalize_url u) = URLTracker.normalize_url u :=
  ⟨normalize_url_split u hp4 hp5, normalize_url_lower u⟩

/-- C7 witness: the two hypotheses hold and the characterization follows
at a concrete URL with `www.`, query, fragment and a trailing slash. -/
theorem normalize_url_spec_witness :
    urlsplit (URLTracker.normalize_url "https://www.example.com/jobs/?q=1#f".data) =
      ⟨(urlparse (rstripSlash (lowerStr "https://www.example.com/jobs/?q=1#f".data))).scheme,
        removeWWW (urlparse (rstripSlash
          (lowerStr "https://www.example.com/jobs/?q=1#f".data))).netloc,
        rstripSlash (urlparse (rstripSlash
          (lowerStr "https://www.example.com/jobs/?q=1#f".data))).path, [], []⟩
    ∧ lowerStr (URLTracker.normalize_url "https://www.example.com/jobs/?q=1#f".data)
        = URLTracker.normalize_url "https://www.example.com/jobs/?q=1#f".data :=
  normalize_url_spec "https://www.example.com/jobs/?q=1#f".data
    (by decide) (by decide)

/-- C7 counterexample: `normalize_url` removes a `www.` that is not
leading (`sub.www.example.com` becomes `sub.example.com`) and strips two
trailing slashes, refuting the claim's "leading `www.` only" and "a single
trailing slash". -/
theorem c7_counterexample :
    URLTracker.normalize_url "https://sub.www.example.com/x".data
      = "https://sub.example.com/x".data
    ∧ URLTracker.normalize_url "https://example.com/a//".data
      = "https://example.com/a".data := by
  constructor <;> decide

/-- C8: `URLTracker.normalize_url` is idempotent on every URL whose parse
satisfies the C7 roundtrip conditions, has a nonempty cleaned netloc or
stripped path (so the output does not end in `//`), and whose first
normalization yields a netloc on which `removeWWW` is a fixpoint (no
`www.` occurrence is created by the first pass) and a path that
`urlparse`'s `uses_params`-guarded split does not cut at a `;`; and it is
deterministic. -/
theorem normalize_url_idem (u : List Char)
    (hp4 : (rstripSlash (urlparse (rstripSlash (lowerStr u))).path).take 2
        = ['/', '/'] → removeWWW (urlparse (rstripSlash (lowerStr u))).netloc ≠ [])
    (hp5 : removeWWW (urlparse (rstripSlash (lowerStr u))).netloc = [] →
        (urlparse (rstripSlash (lowerStr u))).scheme ≠ [] →
        (urlparse (rstripSlash (lowerStr u))).scheme ∈ uses_netloc →
        rstripSlash (urlparse (rstripSlash (lowerStr u))).path = []
          ∨ (rstripSlash (urlparse (rstripSlash (lowerStr u))).path).head?
            = some '/')
    (hA : removeWWW (urlparse (rstripSlash (lowerStr u))).netloc ≠ []
        ∨ rstripSlash (urlparse (rstripSlash (lowerStr u))).path ≠ [])
    (h1 : removeWWW (urlsplit (URLTracker.normalize_url u)).netloc
        = (urlsplit (URLTracker.normalize_url u)).netloc)
    (h2 : (urlparse (URLTracker.normalize_url u)).path
        = (urlsplit (URLTracker.normalize_url u)).path) :
    URLTracker.normalize_url (URLTracker.normalize_url u)
        = URLTracker.normalize_url u
    ∧ ∀ v, v = u → URLTracker.normalize_url v = URLTracker.normalize_url u := by
  refine ⟨?_, fun v hv => by rw [hv]⟩
  conv_lhs => rw [normalize_url_eq_unsplit]
  rw [normalize_url_lower u, normalize_url_rstrip u hA]
  rw [urlparse_scheme, urlparse_netloc, h2, h1]
  rw [normalize_url_split u hp4 hp5]
  dsimp only
  rw [rstripSlash_idem]
  rw [normalize_url_eq_unsplit u]

/-- C8 witness: the hypotheses hold and idempotence follows at a concrete
URL with `www.`, query, fragment and a trailing slash. -/
theorem normalize_url_idem_witness :
    URLTracker.normalize_url (URLTracker.normalize_url
        "https://www.example.com/jobs/?q=1#f".data)
      = URLTracker.normalize_url "https://www.example.com/jobs/?q=1#f".data :=
  (normalize_url_idem "https://www.example.com/jobs/?q=1#f".data
    (by decide) (by decide) (by decide) (by decide) (by decide)).1

/-- C8 counterexample: normalization is not idempotent in general — the
replace-all of `www.` can create a fresh `www.` occurrence that the second
pass removes (`wwwww.w.com` normalizes to `www.com`, then to `com`). -/
theorem c8_counterexample :
    URLTracker.normalize_url (URLTracker.normalize_url "http://wwwww.w.com".data)
      ≠ URLTracker.normalize_url "http://wwwww.w.com".data := by
  decide
